import Mathlib

/-
Verification of the rustqubo expression-compilation / QUBO core.

The definitions below are shallow embeddings of the Rust sources:
  * `StaticExpr` and its operations come from src/src/expr.rs
    (`StaticExpr`, `get_cross`, `expand_add`, `expand_mul`, `simplify`,
    `is_positive`, `calculate`).
  * `Expr` over qubits and `Constraint` come from src/src/expr.rs and
    src/src/model.rs (`Expr::calculate`, `Constraint::is_satisfied`).
  * `Expanded` and `generate_qubo` come from src/src/expanded.rs; the
    order-reduction step comes from src/src/compiled.rs.
  * The simulated-annealing quantities come from
    src/classical_solver/src/algo.rs and src/annealers/src/{model,node}.rs.
  * `Prods` and `BinaryRepr` come from src/annealers/src/model.rs and
    src/annealers/src/repr.rs.

The generic scalar type `R: Real` of the sources is instantiated with `ℚ`
(the sources use exact comparisons through `as_f64`; all constants involved
are rationals), label/placeholder types with `ℕ`.  Rust `HashMap`s are
modelled as association lists or as functions; `BTreeSet` keys as `Finset`
over a linearly ordered qubit type, matching the derived `Ord` of the
source.  Loops that accumulate with `+=` are modelled as folds or sums.
-/

namespace RustQubo

/-! # StaticExpr (src/src/expr.rs)

`StaticExpr<Tp, R>` with `Tp := ℕ`, `R := ℚ`. -/

inductive StaticExpr where
  | Placeholder : ℕ → StaticExpr
  | Add : List StaticExpr → StaticExpr
  | Mul : List StaticExpr → StaticExpr
  | Number : ℚ → StaticExpr

namespace StaticExpr

/- Node count, used as the termination measure for `simplify`. -/
mutual

def size : StaticExpr → ℕ
  | .Placeholder _ => 1
  | .Number _ => 1
  | .Add l => 1 + sizeL l
  | .Mul l => 1 + sizeL l

def sizeL : List StaticExpr → ℕ
  | [] => 0
  | x :: xs => size x + sizeL xs

end

theorem size_pos (e : StaticExpr) : 1 ≤ size e := by
  cases e <;> simp [size]

theorem sizeL_mem {l : List StaticExpr} {c : StaticExpr} (h : c ∈ l) :
    size c ≤ sizeL l := by
  induction l with
  | nil => cases h
  | cons x xs ih =>
    rcases List.mem_cons.1 h with h | h
    · subst h; simp only [sizeL]; omega
    · have h1 := ih h; simp only [sizeL]; omega

/-- `get_cross` from `StaticExpr` (src/src/expr.rs, lines 506-522). -/
def get_cross (v : List (List StaticExpr)) : List (List StaticExpr) :=
  v.foldl (fun outer inner =>
    outer.flatMap (fun w => inner.map (fun item => w ++ [item]))) [[]]

/- `expand_add` (src/src/expr.rs, lines 524-533): distributes `Mul` over
`Add` and flattens nested `Add`s, returning the list of summands. -/
mutual

def expand_add : StaticExpr → List StaticExpr
  | .Add l => expand_addL l
  | .Mul l => (get_cross (expand_addM l)).map StaticExpr.Mul
  | o => [o]

def expand_addL : List StaticExpr → List StaticExpr
  | [] => []
  | x :: xs => expand_add x ++ expand_addL xs

def expand_addM : List StaticExpr → List (List StaticExpr)
  | [] => []
  | x :: xs => expand_add x :: expand_addM xs

end

/- `expand_mul` (src/src/expr.rs, lines 535-540): flattens nested `Mul`s,
returning the list of factors. -/
mutual

def expand_mul : StaticExpr → List StaticExpr
  | .Mul l => expand_mulL l
  | o => [o]

def expand_mulL : List StaticExpr → List StaticExpr
  | [] => []
  | x :: xs => expand_mul x ++ expand_mulL xs

end

theorem expand_addL_eq (l : List StaticExpr) :
    expand_addL l = l.flatMap expand_add := by
  induction l with
  | nil => rfl
  | cons x xs ih => simp [expand_addL, ih]

theorem expand_addM_eq (l : List StaticExpr) :
    expand_addM l = l.map expand_add := by
  induction l with
  | nil => rfl
  | cons x xs ih => simp [expand_addM, ih]

theorem expand_mulL_eq (l : List StaticExpr) :
    expand_mulL l = l.flatMap expand_mul := by
  induction l with
  | nil => rfl
  | cons x xs ih => simp [expand_mulL, ih]

theorem mem_get_cross {vss : List (List StaticExpr)} {ws : List StaticExpr}
    (h : ws ∈ get_cross vss) : List.Forall₂ (fun w vs => w ∈ vs) ws vss := by
  suffices H : ∀ (vss : List (List StaticExpr)) (acc : List (List StaticExpr))
      (ws : List StaticExpr),
      ws ∈ vss.foldl (fun outer inner =>
        outer.flatMap (fun w => inner.map (fun item => w ++ [item]))) acc →
      ∃ a ∈ acc, ∃ picks, ws = a ++ picks ∧
        List.Forall₂ (fun w vs => w ∈ vs) picks vss by
    rcases H vss [[]] ws h with ⟨a, ha, picks, hws, hpicks⟩
    simp at ha; subst ha; simpa [hws] using hpicks
  intro vss
  induction vss with
  | nil =>
    intro acc ws h
    exact ⟨ws, h, [], by simp⟩
  | cons vs vss ih =>
    intro acc ws h
    rcases ih _ ws h with ⟨a, ha, picks, hws, hpicks⟩
    rcases List.mem_flatMap.1 ha with ⟨a0, ha0, hmem⟩
    rcases List.mem_map.1 hmem with ⟨item, hitem, rfl⟩
    exact ⟨a0, ha0, item :: picks, by simp [hws],
      List.forall₂_cons.2 ⟨hitem, hpicks⟩⟩

theorem expand_add_size_aux :
    ∀ (n : ℕ) (t : StaticExpr), size t ≤ n → ∀ x ∈ expand_add t, size x ≤ size t := by
  intro n
  induction n with
  | zero => intro t ht x hx; have := size_pos t; omega
  | succ n ih =>
    intro t ht
    match t with
    | .Placeholder p => intro x hx; simp [expand_add] at hx; subst hx; rfl
    | .Number q => intro x hx; simp [expand_add] at hx; subst hx; rfl
    | .Add l =>
      intro x hx
      rw [expand_add, expand_addL_eq] at hx
      rcases List.mem_flatMap.1 hx with ⟨c, hc, hxc⟩
      have hcl : size c ≤ sizeL l := sizeL_mem hc
      have hle : size c ≤ n := by simp [size] at ht; omega
      have := ih c hle x hxc
      simp [size]; omega
    | .Mul l =>
      intro x hx
      rw [expand_add] at hx
      rcases List.mem_map.1 hx with ⟨ws, hws, rfl⟩
      rw [expand_addM_eq] at hws
      have hfa := mem_get_cross hws
      have key : ∀ (l' : List StaticExpr) (ws' : List StaticExpr),
          List.Forall₂ (fun w vs => w ∈ vs) ws' (l'.map expand_add) →
          (∀ c ∈ l', ∀ x ∈ expand_add c, size x ≤ size c) →
          sizeL ws' ≤ sizeL l' := by
        intro l'
        induction l' with
        | nil =>
          intro ws' hf _
          rw [List.map_nil] at hf
          cases hf
          simp [sizeL]
        | cons c cs ih2 =>
          intro ws' hf hbound
          rw [List.map_cons] at hf
          cases hf with
          | cons hw hrest =>
            rename_i w ws''
            have h1 : size w ≤ size c := hbound c (by simp) w hw
            have h2 : sizeL ws'' ≤ sizeL cs :=
              ih2 ws'' hrest (fun c' hc' => hbound c' (by simp [hc']))
            simp [sizeL]; omega
      have hb : ∀ c ∈ l, ∀ x ∈ expand_add c, size x ≤ size c := by
        intro c hc x hxc
        have hcl : size c ≤ sizeL l := sizeL_mem hc
        have hle : size c ≤ n := by simp [size] at ht; omega
        exact ih c hle x hxc
      have := key l ws hfa hb
      simp [size]; omega

theorem expand_add_size (t : StaticExpr) :
    ∀ x ∈ expand_add t, size x ≤ size t :=
  expand_add_size_aux (size t) t le_rfl

theorem expand_mul_size_aux :
    ∀ (n : ℕ) (t : StaticExpr), size t ≤ n → ∀ x ∈ expand_mul t, size x ≤ size t := by
  intro n
  induction n with
  | zero => intro t ht x hx; have := size_pos t; omega
  | succ n ih =>
    intro t ht
    match t with
    | .Placeholder p => intro x hx; simp [expand_mul] at hx; subst hx; rfl
    | .Number q => intro x hx; simp [expand_mul] at hx; subst hx; rfl
    | .Add l => intro x hx; simp [expand_mul] at hx; subst hx; rfl
    | .Mul l =>
      intro x hx
      rw [expand_mul, expand_mulL_eq] at hx
      rcases List.mem_flatMap.1 hx with ⟨c, hc, hxc⟩
      have hcl : size c ≤ sizeL l := sizeL_mem hc
      have hle : size c ≤ n := by simp [size] at ht; omega
      have := ih c hle x hxc
      simp [size]; omega

theorem expand_mul_size (t : StaticExpr) :
    ∀ x ∈ expand_mul t, size x ≤ size t :=
  expand_mul_size_aux (size t) t le_rfl

/- The body of `simplify` (src/src/expr.rs, lines 542-583) iterates over the
expanded child list with a `filter_map` that accumulates the running numeric
value `val` (summed for `Add`, multiplied for `Mul`) while keeping the
non-numeric children in order; `fold_numbers` is that loop, with the
accumulator list kept reversed as in an imperative push. -/
def fold_numbers (is_add : Bool) :
    List StaticExpr → List StaticExpr → Option ℚ → List StaticExpr × Option ℚ
  | [], acc, val => (acc.reverse, val)
  | .Number n :: rest, acc, val =>
      fold_numbers is_add rest acc (some (match val with
        | some v => if is_add then v + n else v * n
        | none => n))
  | x :: rest, acc, val => fold_numbers is_add rest (x :: acc) val

/- The tail of `simplify`: push the folded `Number` (if any), collapse a
one-element vector, else rebuild the `Add`/`Mul` node. -/
def pushVal : List StaticExpr × Option ℚ → List StaticExpr
  | (v, some n) => v ++ [StaticExpr.Number n]
  | (v, none) => v

def assembleV (is_add : Bool) : List StaticExpr → StaticExpr
  | [x] => x
  | l => if is_add then StaticExpr.Add l else StaticExpr.Mul l

def rebuild (is_add : Bool) (items : List StaticExpr) : StaticExpr :=
  assembleV is_add (pushVal (fold_numbers is_add items [] none))

theorem attach_map_list {α β : Type} (l : List α) (f : α → β) :
    (l.attach.map fun x => f x.1) = l.map f := by
  rw [show (fun (x : {x // x ∈ l}) => f x.1) = f ∘ Subtype.val from rfl,
    ← List.map_map, List.attach_map_subtype_val]

theorem expand_add_size_lt {l : List StaticExpr} {x : StaticExpr}
    (hx : x ∈ expand_add (.Add l)) : size x < size (.Add l) := by
  rw [expand_add, expand_addL_eq] at hx
  rcases List.mem_flatMap.1 hx with ⟨c, hc, hxc⟩
  have h1 : size x ≤ size c := expand_add_size c x hxc
  have h2 : size c ≤ sizeL l := sizeL_mem hc
  simp only [size]; omega

theorem expand_mul_size_lt {l : List StaticExpr} {x : StaticExpr}
    (hx : x ∈ expand_mul (.Mul l)) : size x < size (.Mul l) := by
  rw [expand_mul, expand_mulL_eq] at hx
  rcases List.mem_flatMap.1 hx with ⟨c, hc, hxc⟩
  have h1 : size x ≤ size c := expand_mul_size c x hxc
  have h2 : size c ≤ sizeL l := sizeL_mem hc
  simp only [size]; omega

/-- `StaticExpr::simplify` (src/src/expr.rs, lines 542-583): an `Add` is
first expanded with `expand_add`, a `Mul` with `expand_mul`; every child is
simplified recursively; numeric children are folded into one trailing
`Number`; a one-child result collapses to that child. -/
def simplify (e : StaticExpr) : StaticExpr :=
  match e with
  | .Add l => rebuild true ((expand_add (.Add l)).attach.map fun x => simplify x.1)
  | .Mul l => rebuild false ((expand_mul (.Mul l)).attach.map fun x => simplify x.1)
  | o => o
termination_by size e
decreasing_by
  · exact expand_add_size_lt x.2
  · exact expand_mul_size_lt x.2

theorem simplify_Placeholder (p : ℕ) :
    simplify (.Placeholder p) = .Placeholder p := by
  rw [simplify]
  all_goals intro l h; exact StaticExpr.noConfusion h

theorem simplify_Number (n : ℚ) : simplify (.Number n) = .Number n := by
  rw [simplify]
  all_goals intro l h; exact StaticExpr.noConfusion h

theorem simplify_Add (l : List StaticExpr) :
    simplify (.Add l) = rebuild true ((expand_add (.Add l)).map simplify) := by
  rw [simplify, attach_map_list]

theorem simplify_Mul (l : List StaticExpr) :
    simplify (.Mul l) = rebuild false ((expand_mul (.Mul l)).map simplify) := by
  rw [simplify, attach_map_list]

/-! ## Shape predicates for the output of `simplify` -/

def isNumB : StaticExpr → Bool
  | .Number _ => true
  | .Placeholder _ => false
  | .Add _ => false
  | .Mul _ => false

def isPhB : StaticExpr → Bool
  | .Placeholder _ => true
  | .Number _ => false
  | .Add _ => false
  | .Mul _ => false

def isMulB : StaticExpr → Bool
  | .Mul _ => true
  | .Placeholder _ => false
  | .Number _ => false
  | .Add _ => false

def isAddB : StaticExpr → Bool
  | .Add _ => true
  | .Placeholder _ => false
  | .Number _ => false
  | .Mul _ => false

/- `okList allowed l`: `l` does not have exactly one element, every element
but the last satisfies `allowed`, and the last satisfies `allowed` or is the
single folded `Number` pushed at the end by `simplify`. -/
def okList (allowed : StaticExpr → Bool) (l : List StaticExpr) : Bool :=
  decide (l.length ≠ 1) && l.dropLast.all allowed &&
    (match l.getLast? with
     | none => true
     | some x => allowed x || isNumB x)

def flatMulB : StaticExpr → Bool
  | .Mul l => okList isPhB l
  | .Placeholder _ => false
  | .Number _ => false
  | .Add _ => false

def addAllowed (x : StaticExpr) : Bool := isPhB x || flatMulB x

def flatAddB : StaticExpr → Bool
  | .Add l => okList addAllowed l
  | .Placeholder _ => false
  | .Number _ => false
  | .Mul _ => false

def nfMulAllowed (x : StaticExpr) : Bool := isPhB x || flatAddB x

def semiMulAllowed (x : StaticExpr) : Bool := isPhB x || flatAddB x || flatMulB x

/- Full normal forms: fixed points of `simplify`. -/
def nfB : StaticExpr → Bool
  | .Add l => okList addAllowed l
  | .Mul l => okList nfMulAllowed l
  | .Placeholder _ => true
  | .Number _ => true

/- Forms produced by one pass of `simplify`: a `Mul` node may still carry
flat `Mul` children (they appear when an `Add` with a single expanded
summand collapses to a product). -/
def semiNfB : StaticExpr → Bool
  | .Add l => okList addAllowed l
  | .Mul l => okList semiMulAllowed l
  | .Placeholder _ => true
  | .Number _ => true

mutual

def addFreeB : StaticExpr → Bool
  | .Add _ => false
  | .Mul l => addFreeL l
  | _ => true

def addFreeL : List StaticExpr → Bool
  | [] => true
  | x :: xs => addFreeB x && addFreeL xs

end

theorem addFreeL_mem {l : List StaticExpr} (h : addFreeL l = true) :
    ∀ c ∈ l, addFreeB c = true := by
  induction l with
  | nil => intro c hc; cases hc
  | cons x xs ih =>
    rw [addFreeL, Bool.and_eq_true] at h
    intro c hc
    rcases List.mem_cons.1 hc with hc | hc
    · subst hc; exact h.1
    · exact ih h.2 c hc

theorem addFreeL_of_mem {l : List StaticExpr}
    (h : ∀ c ∈ l, addFreeB c = true) : addFreeL l = true := by
  induction l with
  | nil => rfl
  | cons x xs ih =>
    rw [addFreeL, Bool.and_eq_true]
    exact ⟨h x (by simp), ih (fun c hc => h c (by simp [hc]))⟩

/- Every summand produced by `expand_add` contains no `Add` node. -/
theorem expand_add_addFree_aux :
    ∀ (n : ℕ) (t : StaticExpr), size t ≤ n →
      ∀ x ∈ expand_add t, addFreeB x = true := by
  intro n
  induction n with
  | zero => intro t ht x hx; have := size_pos t; omega
  | succ n ih =>
    intro t ht
    match t with
    | .Placeholder p => intro x hx; simp [expand_add] at hx; subst hx; rfl
    | .Number q => intro x hx; simp [expand_add] at hx; subst hx; rfl
    | .Add l =>
      intro x hx
      rw [expand_add, expand_addL_eq] at hx
      rcases List.mem_flatMap.1 hx with ⟨c, hc, hxc⟩
      have hcl : size c ≤ sizeL l := sizeL_mem hc
      have hle : size c ≤ n := by simp [size] at ht; omega
      exact ih c hle x hxc
    | .Mul l =>
      intro x hx
      rw [expand_add] at hx
      rcases List.mem_map.1 hx with ⟨ws, hws, rfl⟩
      rw [expand_addM_eq] at hws
      have hfa := mem_get_cross hws
      rw [addFreeB]
      apply addFreeL_of_mem
      intro c hc
      -- c is a pick from expand_add of some factor of l
      have key : ∀ (l' : List StaticExpr) (ws' : List StaticExpr),
          List.Forall₂ (fun w vs => w ∈ vs) ws' (l'.map expand_add) →
          (∀ c' ∈ l', ∀ x' ∈ expand_add c', addFreeB x' = true) →
          ∀ c' ∈ ws', addFreeB c' = true := by
        intro l'
        induction l' with
        | nil =>
          intro ws' hf _
          rw [List.map_nil] at hf
          cases hf
          intro c' hc'; cases hc'
        | cons d ds ih2 =>
          intro ws' hf hbound
          rw [List.map_cons] at hf
          cases hf with
          | cons hw hrest =>
            rename_i w ws''
            intro c' hc'
            rcases List.mem_cons.1 hc' with hc' | hc'
            · subst hc'; exact hbound d (by simp) c' hw
            · exact ih2 ws'' hrest (fun d' hd' => hbound d' (by simp [hd'])) c' hc'
      refine key l ws hfa ?_ c hc
      intro c' hc' x' hx'
      have hcl : size c' ≤ sizeL l := sizeL_mem hc'
      have hle : size c' ≤ n := by simp [size] at ht; omega
      exact ih c' hle x' hx'

theorem expand_add_addFree (t : StaticExpr) :
    ∀ x ∈ expand_add t, addFreeB x = true :=
  expand_add_addFree_aux (size t) t le_rfl

/- `expand_mul` never returns a `Mul` node, and preserves `addFreeB`. -/
theorem expand_mul_shape_aux :
    ∀ (n : ℕ) (t : StaticExpr), size t ≤ n →
      ∀ x ∈ expand_mul t,
        isMulB x = false ∧ (addFreeB t = true → addFreeB x = true) := by
  intro n
  induction n with
  | zero => intro t ht x hx; have := size_pos t; omega
  | succ n ih =>
    intro t ht
    match t with
    | .Placeholder p =>
      intro x hx; simp [expand_mul] at hx; subst hx
      exact ⟨rfl, fun h => h⟩
    | .Number q =>
      intro x hx; simp [expand_mul] at hx; subst hx
      exact ⟨rfl, fun h => h⟩
    | .Add l =>
      intro x hx; simp [expand_mul] at hx; subst hx
      exact ⟨rfl, fun h => h⟩
    | .Mul l =>
      intro x hx
      rw [expand_mul, expand_mulL_eq] at hx
      rcases List.mem_flatMap.1 hx with ⟨c, hc, hxc⟩
      have hcl : size c ≤ sizeL l := sizeL_mem hc
      have hle : size c ≤ n := by simp [size] at ht; omega
      refine ⟨(ih c hle x hxc).1, fun h => (ih c hle x hxc).2 ?_⟩
      rw [addFreeB] at h
      exact addFreeL_mem h c hc

theorem expand_mul_not_mul (t : StaticExpr) :
    ∀ x ∈ expand_mul t, isMulB x = false :=
  fun x hx => (expand_mul_shape_aux (size t) t le_rfl x hx).1

theorem expand_mul_addFree {t : StaticExpr} (h : addFreeB t = true) :
    ∀ x ∈ expand_mul t, addFreeB x = true :=
  fun x hx => (expand_mul_shape_aux (size t) t le_rfl x hx).2 h

theorem atom_of_addFree_not_mul {x : StaticExpr} (h1 : addFreeB x = true)
    (h2 : isMulB x = false) : isPhB x = true ∨ isNumB x = true := by
  cases x with
  | Placeholder p => exact Or.inl rfl
  | Number q => exact Or.inr rfl
  | Add l => rw [addFreeB] at h1; cases h1
  | Mul l => rw [isMulB] at h2; cases h2

/-! ## Behaviour of `fold_numbers` and `rebuild` -/

theorem fold_cons_num (b : Bool) (n : ℚ) (rest acc : List StaticExpr)
    (val : Option ℚ) :
    fold_numbers b (.Number n :: rest) acc val =
      fold_numbers b rest acc (some (match val with
        | some v => if b then v + n else v * n
        | none => n)) := rfl

theorem fold_cons_not_num {x : StaticExpr} (hx : isNumB x = false)
    (b : Bool) (rest acc : List StaticExpr) (val : Option ℚ) :
    fold_numbers b (x :: rest) acc val = fold_numbers b rest (x :: acc) val := by
  cases x with
  | Number n => rw [isNumB] at hx; cases hx
  | Placeholder p => rfl
  | Add l => rfl
  | Mul l => rfl

theorem fold_no_num {items : List StaticExpr}
    (h : ∀ x ∈ items, isNumB x = false) (b : Bool) (acc : List StaticExpr)
    (val : Option ℚ) :
    fold_numbers b items acc val = (acc.reverse ++ items, val) := by
  induction items generalizing acc with
  | nil => simp [fold_numbers]
  | cons x rest ih =>
    rw [fold_cons_not_num (h x (by simp)), ih (fun y hy => h y (by simp [hy]))]
    simp

theorem fold_append_num {core : List StaticExpr}
    (h : ∀ x ∈ core, isNumB x = false) (b : Bool) (acc : List StaticExpr)
    (n : ℚ) :
    fold_numbers b (core ++ [.Number n]) acc none =
      (acc.reverse ++ core, some n) := by
  induction core generalizing acc with
  | nil => simp [fold_numbers]
  | cons x rest ih =>
    rw [List.cons_append, fold_cons_not_num (h x (by simp)),
      ih (fun y hy => h y (by simp [hy]))]
    simp

theorem fold_core (b : Bool) (items acc : List StaticExpr) (val : Option ℚ) :
    (fold_numbers b items acc val).1 =
      acc.reverse ++ items.filter (fun x => !isNumB x) := by
  induction items generalizing acc val with
  | nil => simp [fold_numbers]
  | cons x rest ih =>
    cases hx : isNumB x with
    | true =>
      have hx2 : ∃ n, x = StaticExpr.Number n := by
        cases x with
        | Number n => exact ⟨n, rfl⟩
        | Placeholder p => rw [isNumB] at hx; cases hx
        | Add l => rw [isNumB] at hx; cases hx
        | Mul l => rw [isNumB] at hx; cases hx
      rcases hx2 with ⟨n, rfl⟩
      rw [fold_cons_num, ih]
      simp [List.filter_cons, hx]
    | false =>
      rw [fold_cons_not_num hx, ih]
      simp [List.filter_cons, hx]

theorem assembleV_of_len {l : List StaticExpr} (h : l.length ≠ 1) (b : Bool) :
    assembleV b l = if b then StaticExpr.Add l else StaticExpr.Mul l := by
  match l with
  | [] => rfl
  | [x] => simp at h
  | x :: y :: rest => rfl

/- `nodeOk b allowed e` lists the possible results of `rebuild b`: a single
`Number`, a single allowed child, or the rebuilt node over an `okList`. -/
def nodeOk (b : Bool) (allowed : StaticExpr → Bool) (e : StaticExpr) : Bool :=
  isNumB e || allowed e ||
    (match b, e with
     | true, .Add l => okList allowed l
     | false, .Mul l => okList allowed l
     | _, _ => false)

theorem okList_intro {allowed : StaticExpr → Bool} {l : List StaticExpr}
    (hlen : l.length ≠ 1)
    (hdrop : ∀ x ∈ l.dropLast, allowed x = true)
    (hlast : ∀ x, l.getLast? = some x → allowed x = true ∨ isNumB x = true) :
    okList allowed l = true := by
  rw [okList]
  simp only [Bool.and_eq_true, decide_eq_true_eq]
  refine ⟨⟨hlen, List.all_eq_true.2 hdrop⟩, ?_⟩
  cases hl : l.getLast? with
  | none => rfl
  | some x =>
    rcases hlast x hl with h | h <;> simp [h]

theorem okList_elim {allowed : StaticExpr → Bool} {l : List StaticExpr}
    (h : okList allowed l = true) :
    l.length ≠ 1 ∧ (∀ x ∈ l.dropLast, allowed x = true) ∧
      (∀ x, l.getLast? = some x → allowed x = true ∨ isNumB x = true) := by
  rw [okList] at h
  simp only [Bool.and_eq_true, decide_eq_true_eq] at h
  refine ⟨h.1.1, List.all_eq_true.1 h.1.2, ?_⟩
  intro x hx
  rw [hx] at h
  have h2 := h.2
  rw [Bool.or_eq_true] at h2
  exact h2

theorem okList_mono {p q : StaticExpr → Bool} (hpq : ∀ x, p x = true → q x = true)
    {l : List StaticExpr} (h : okList p l = true) : okList q l = true := by
  rcases okList_elim h with ⟨h1, h2, h3⟩
  refine okList_intro h1 (fun x hx => hpq x (h2 x hx)) ?_
  intro x hx
  rcases h3 x hx with h | h
  · exact Or.inl (hpq x h)
  · exact Or.inr h

theorem okList_mem {allowed : StaticExpr → Bool} {l : List StaticExpr}
    (h : okList allowed l = true) :
    ∀ x ∈ l, allowed x = true ∨ isNumB x = true := by
  rcases okList_elim h with ⟨_, h2, h3⟩
  intro x hx
  rcases List.eq_nil_or_concat l with rfl | ⟨l2, a, hl⟩
  · cases hx
  · rw [List.concat_eq_append] at hl
    subst hl
    rcases List.mem_append.1 hx with hx | hx
    · rw [List.dropLast_concat] at h2
      exact Or.inl (h2 x hx)
    · rw [List.mem_singleton.1 hx]
      exact h3 a (List.getLast?_concat l2)

theorem nodeOk_node {allowed : StaticExpr → Bool} {l : List StaticExpr} (b : Bool)
    (hok : okList allowed l = true) :
    nodeOk b allowed (if b then StaticExpr.Add l else StaticExpr.Mul l) = true := by
  cases b
  · show (isNumB (StaticExpr.Mul l) || allowed (StaticExpr.Mul l) ||
      okList allowed l) = true
    rw [hok]
    simp
  · show (isNumB (StaticExpr.Add l) || allowed (StaticExpr.Add l) ||
      okList allowed l) = true
    rw [hok]
    simp

theorem nodeOk_of_allowed {allowed : StaticExpr → Bool} {e : StaticExpr} (b : Bool)
    (h : allowed e = true) : nodeOk b allowed e = true := by
  unfold nodeOk
  rw [h]
  simp

theorem nodeOk_of_num {allowed : StaticExpr → Bool} {e : StaticExpr} (b : Bool)
    (h : isNumB e = true) : nodeOk b allowed e = true := by
  unfold nodeOk
  rw [h]
  simp

theorem rebuild_nodeOk {allowed : StaticExpr → Bool} {items : List StaticExpr}
    (b : Bool)
    (h1 : ∀ x ∈ items, isNumB x = true ∨ allowed x = true)
    (h2 : ∀ x, allowed x = true → isNumB x = false) :
    nodeOk b allowed (rebuild b items) = true := by
  rw [rebuild]
  have hcore := fold_core b items [] none
  rw [List.reverse_nil, List.nil_append] at hcore
  have hallow : ∀ x ∈ (fold_numbers b items [] none).1, allowed x = true := by
    intro x hx
    rw [hcore] at hx
    rw [List.mem_filter] at hx
    rcases h1 x hx.1 with h | h
    · rw [h] at hx; simp at hx
    · exact h
  cases hval : (fold_numbers b items [] none).2 with
  | some n =>
    have hpush : pushVal (fold_numbers b items [] none) =
        (fold_numbers b items [] none).1 ++ [.Number n] := by
      rcases hfv : fold_numbers b items [] none with ⟨v, val⟩
      rw [hfv] at hval
      simp at hval
      subst hval
      rfl
    rw [hpush]
    match hsh : (fold_numbers b items [] none).1 with
    | [] =>
      rw [List.nil_append]
      rw [show assembleV b [StaticExpr.Number n] = StaticExpr.Number n from rfl]
      exact nodeOk_of_num b rfl
    | c :: cs =>
      have hlen : (c :: cs ++ [StaticExpr.Number n]).length ≠ 1 := by
        simp
      rw [assembleV_of_len hlen]
      have hok : okList allowed (c :: cs ++ [StaticExpr.Number n]) = true := by
        refine okList_intro hlen ?_ ?_
        · intro x hx
          rw [show c :: cs ++ [StaticExpr.Number n] =
            (c :: cs) ++ [StaticExpr.Number n] from rfl, List.dropLast_concat] at hx
          exact hallow x (by rw [hsh]; exact hx)
        · intro x hx
          rw [show c :: cs ++ [StaticExpr.Number n] =
            (c :: cs) ++ [StaticExpr.Number n] from rfl, List.getLast?_concat] at hx
          cases hx
          exact Or.inr rfl
      exact nodeOk_node b hok
  | none =>
    have hpush : pushVal (fold_numbers b items [] none) =
        (fold_numbers b items [] none).1 := by
      rcases hfv : fold_numbers b items [] none with ⟨v, val⟩
      rw [hfv] at hval
      simp at hval
      subst hval
      rfl
    rw [hpush]
    match hsh : (fold_numbers b items [] none).1 with
    | [x] =>
      rw [show assembleV b [x] = x from rfl]
      exact nodeOk_of_allowed b (hallow x (by rw [hsh]; simp))
    | [] =>
      rw [assembleV_of_len (by simp)]
      have hok : okList allowed ([] : List StaticExpr) = true :=
        okList_intro (by simp) (by simp) (by simp)
      exact nodeOk_node b hok
    | x :: y :: rest =>
      rw [assembleV_of_len (by simp)]
      have hok : okList allowed (x :: y :: rest) = true := by
        refine okList_intro (by simp) ?_ ?_
        · intro z hz
          exact hallow z (by rw [hsh]; exact List.dropLast_subset _ hz)
        · intro z hz
          have hzm : z ∈ x :: y :: rest := by
            rcases List.mem_of_mem_getLast? hz with h
            exact h
          exact Or.inl (hallow z (by rw [hsh]; exact hzm))
      exact nodeOk_node b hok

theorem rebuild_eq_self {allowed : StaticExpr → Bool} (b : Bool)
    {l : List StaticExpr} (hok : okList allowed l = true)
    (h2 : ∀ x, allowed x = true → isNumB x = false) :
    rebuild b l = if b then StaticExpr.Add l else StaticExpr.Mul l := by
  rcases List.eq_nil_or_concat l with rfl | ⟨l2, a, hl⟩
  · rw [rebuild]
    rw [fold_no_num (by simp) b [] none]
    rw [show pushVal (([] : List StaticExpr).reverse ++ [], none) =
      ([] : List StaticExpr) by rfl]
    exact assembleV_of_len (by simp) b
  · rw [List.concat_eq_append] at hl
    subst hl
    rcases okList_elim hok with ⟨hlen, hdrop, hlast⟩
    rw [rebuild]
    have hdrop2 : ∀ x ∈ l2, allowed x = true := by
      intro x hx
      exact hdrop x (by rw [List.dropLast_concat]; exact hx)
    have hl2nn : ∀ x ∈ l2, isNumB x = false := fun x hx => h2 x (hdrop2 x hx)
    rcases hlast a (List.getLast?_concat l2) with ha | ha
    · -- last element allowed, hence no Number anywhere
      have hnn : ∀ x ∈ l2 ++ [a], isNumB x = false := by
        intro x hx
        rcases List.mem_append.1 hx with hx | hx
        · exact hl2nn x hx
        · rw [List.mem_singleton.1 hx]; exact h2 a ha
      rw [fold_no_num hnn b [] none]
      rw [show pushVal (([] : List StaticExpr).reverse ++ (l2 ++ [a]), none) =
        l2 ++ [a] by simp [pushVal]]
      exact assembleV_of_len hlen b
    · -- last element is the trailing Number
      have ha2 : ∃ n, a = StaticExpr.Number n := by
        cases a <;> simp [isNumB] at ha ⊢
      rcases ha2 with ⟨n, rfl⟩
      rw [fold_append_num hl2nn b [] n]
      rw [show pushVal (([] : List StaticExpr).reverse ++ l2, some n) =
        l2 ++ [StaticExpr.Number n] by simp [pushVal]]
      exact assembleV_of_len hlen b

/-! ## The shape of `simplify` results -/

theorem isNumB_false_of_ph {x : StaticExpr} (h : isPhB x = true) :
    isNumB x = false := by
  cases x with
  | Placeholder p => rfl
  | Number n => rw [isPhB] at h; cases h
  | Add l => rfl
  | Mul l => rfl

theorem isNumB_false_of_flatMul {x : StaticExpr} (h : flatMulB x = true) :
    isNumB x = false := by
  cases x with
  | Placeholder p => rfl
  | Number n => rw [flatMulB] at h; cases h
  | Add l => rfl
  | Mul l => rfl

theorem isNumB_false_of_flatAdd {x : StaticExpr} (h : flatAddB x = true) :
    isNumB x = false := by
  cases x with
  | Placeholder p => rfl
  | Number n => rw [flatAddB] at h; cases h
  | Add l => rfl
  | Mul l => rfl

theorem isNumB_false_of_addAllowed {x : StaticExpr} (h : addAllowed x = true) :
    isNumB x = false := by
  rw [addAllowed, Bool.or_eq_true] at h
  rcases h with h | h
  · exact isNumB_false_of_ph h
  · exact isNumB_false_of_flatMul h

theorem isNumB_false_of_nfMulAllowed {x : StaticExpr}
    (h : nfMulAllowed x = true) : isNumB x = false := by
  rw [nfMulAllowed, Bool.or_eq_true] at h
  rcases h with h | h
  · exact isNumB_false_of_ph h
  · exact isNumB_false_of_flatAdd h

theorem isNumB_false_of_semiMulAllowed {x : StaticExpr}
    (h : semiMulAllowed x = true) : isNumB x = false := by
  rw [semiMulAllowed, Bool.or_eq_true, Bool.or_eq_true] at h
  rcases h with (h | h) | h
  · exact isNumB_false_of_ph h
  · exact isNumB_false_of_flatAdd h
  · exact isNumB_false_of_flatMul h

theorem simplify_id_of_atom {x : StaticExpr}
    (h : isPhB x = true ∨ isNumB x = true) : simplify x = x := by
  cases x with
  | Placeholder p => exact simplify_Placeholder p
  | Number n => exact simplify_Number n
  | Add l =>
    rcases h with h | h
    · rw [isPhB] at h; cases h
    · rw [isNumB] at h; cases h
  | Mul l =>
    rcases h with h | h
    · rw [isPhB] at h; cases h
    · rw [isNumB] at h; cases h

theorem map_simplify_id {items : List StaticExpr}
    (h : ∀ x ∈ items, simplify x = x) : items.map simplify = items := by
  induction items with
  | nil => rfl
  | cons x xs ih =>
    rw [List.map_cons, h x (by simp), ih (fun y hy => h y (by simp [hy]))]

theorem nodeOk_false_cases {allowed : StaticExpr → Bool} {e : StaticExpr}
    (h : nodeOk false allowed e = true) :
    isNumB e = true ∨ allowed e = true ∨
      (∃ l, e = StaticExpr.Mul l ∧ okList allowed l = true) := by
  cases e with
  | Placeholder p =>
    have h2 : (isNumB (StaticExpr.Placeholder p) ||
        allowed (StaticExpr.Placeholder p) || false) = true := h
    rw [Bool.or_eq_true, Bool.or_eq_true] at h2
    rcases h2 with (h2 | h2) | h2
    · exact Or.inl h2
    · exact Or.inr (Or.inl h2)
    · cases h2
  | Number n => exact Or.inl rfl
  | Add l =>
    have h2 : (isNumB (StaticExpr.Add l) ||
        allowed (StaticExpr.Add l) || false) = true := h
    rw [Bool.or_eq_true, Bool.or_eq_true] at h2
    rcases h2 with (h2 | h2) | h2
    · exact Or.inl h2
    · exact Or.inr (Or.inl h2)
    · cases h2
  | Mul l =>
    have h2 : (isNumB (StaticExpr.Mul l) ||
        allowed (StaticExpr.Mul l) || okList allowed l) = true := h
    rw [Bool.or_eq_true, Bool.or_eq_true] at h2
    rcases h2 with (h2 | h2) | h2
    · exact Or.inl h2
    · exact Or.inr (Or.inl h2)
    · exact Or.inr (Or.inr ⟨l, rfl, h2⟩)

theorem nodeOk_true_cases {allowed : StaticExpr → Bool} {e : StaticExpr}
    (h : nodeOk true allowed e = true) :
    isNumB e = true ∨ allowed e = true ∨
      (∃ l, e = StaticExpr.Add l ∧ okList allowed l = true) := by
  cases e with
  | Placeholder p =>
    have h2 : (isNumB (StaticExpr.Placeholder p) ||
        allowed (StaticExpr.Placeholder p) || false) = true := h
    rw [Bool.or_eq_true, Bool.or_eq_true] at h2
    rcases h2 with (h2 | h2) | h2
    · exact Or.inl h2
    · exact Or.inr (Or.inl h2)
    · cases h2
  | Number n => exact Or.inl rfl
  | Mul l =>
    have h2 : (isNumB (StaticExpr.Mul l) ||
        allowed (StaticExpr.Mul l) || false) = true := h
    rw [Bool.or_eq_true, Bool.or_eq_true] at h2
    rcases h2 with (h2 | h2) | h2
    · exact Or.inl h2
    · exact Or.inr (Or.inl h2)
    · cases h2
  | Add l =>
    have h2 : (isNumB (StaticExpr.Add l) ||
        allowed (StaticExpr.Add l) || okList allowed l) = true := h
    rw [Bool.or_eq_true, Bool.or_eq_true] at h2
    rcases h2 with (h2 | h2) | h2
    · exact Or.inl h2
    · exact Or.inr (Or.inl h2)
    · exact Or.inr (Or.inr ⟨l, rfl, h2⟩)

/- One pass of `simplify` on an `Add`-free expression gives a placeholder,
a number, or a flat product. -/
theorem simplify_addFree {x : StaticExpr} (h : addFreeB x = true) :
    isPhB (simplify x) = true ∨ isNumB (simplify x) = true ∨
      flatMulB (simplify x) = true := by
  cases x with
  | Placeholder p => rw [simplify_Placeholder]; exact Or.inl rfl
  | Number n => rw [simplify_Number]; exact Or.inr (Or.inl rfl)
  | Add l => rw [addFreeB] at h; cases h
  | Mul l =>
    rw [simplify_Mul]
    have hat : ∀ y ∈ expand_mul (.Mul l), isPhB y = true ∨ isNumB y = true :=
      fun y hy => atom_of_addFree_not_mul (expand_mul_addFree h y hy)
        (expand_mul_not_mul _ y hy)
    rw [map_simplify_id (fun y hy => simplify_id_of_atom (hat y hy))]
    have hnode := @rebuild_nodeOk isPhB _ false
      (fun y hy => (hat y hy).elim Or.inr Or.inl)
      (fun y hy => isNumB_false_of_ph hy)
    rcases nodeOk_false_cases hnode with h2 | h2 | ⟨l2, heq, hok⟩
    · exact Or.inr (Or.inl h2)
    · exact Or.inl h2
    · rw [heq]
      exact Or.inr (Or.inr (by rw [flatMulB]; exact hok))

/- One pass of `simplify` on an `Add` node gives a placeholder, a number, a
flat product or a flat sum. -/
theorem simplify_Add_shape (l : List StaticExpr) :
    isPhB (simplify (.Add l)) = true ∨ isNumB (simplify (.Add l)) = true ∨
      flatMulB (simplify (.Add l)) = true ∨
      flatAddB (simplify (.Add l)) = true := by
  rw [simplify_Add]
  have hsh : ∀ y ∈ (expand_add (.Add l)).map simplify,
      isNumB y = true ∨ addAllowed y = true := by
    intro y hy
    rcases List.mem_map.1 hy with ⟨x, hx, rfl⟩
    rcases simplify_addFree (expand_add_addFree _ x hx) with h | h | h
    · exact Or.inr (by rw [addAllowed, h]; rfl)
    · exact Or.inl h
    · exact Or.inr (by rw [addAllowed, h]; simp)
  have hnode := @rebuild_nodeOk addAllowed _ true hsh
    (fun y hy => isNumB_false_of_addAllowed hy)
  rcases nodeOk_true_cases hnode with h2 | h2 | ⟨l2, heq, hok⟩
  · exact Or.inr (Or.inl h2)
  · rw [addAllowed, Bool.or_eq_true] at h2
    rcases h2 with h2 | h2
    · exact Or.inl h2
    · exact Or.inr (Or.inr (Or.inl h2))
  · rw [heq]
    exact Or.inr (Or.inr (Or.inr (by rw [flatAddB]; exact hok)))

theorem semiNfB_of_atom {x : StaticExpr}
    (h : isPhB x = true ∨ isNumB x = true) : semiNfB x = true := by
  cases x with
  | Placeholder p => rfl
  | Number n => rfl
  | Add l =>
    rcases h with h | h
    · rw [isPhB] at h; cases h
    · rw [isNumB] at h; cases h
  | Mul l =>
    rcases h with h | h
    · rw [isPhB] at h; cases h
    · rw [isNumB] at h; cases h

theorem semiNfB_of_flatMul {x : StaticExpr} (h : flatMulB x = true) :
    semiNfB x = true := by
  cases x with
  | Placeholder p => rfl
  | Number n => rfl
  | Add l => rw [flatMulB] at h; cases h
  | Mul l =>
    rw [flatMulB] at h
    rw [semiNfB]
    refine okList_mono ?_ h
    intro y hy
    rw [semiMulAllowed, hy]
    rfl

theorem semiNfB_of_flatAdd {x : StaticExpr} (h : flatAddB x = true) :
    semiNfB x = true := by
  cases x with
  | Placeholder p => rfl
  | Number n => rfl
  | Mul l => rw [flatAddB] at h; cases h
  | Add l => rw [flatAddB] at h; rw [semiNfB]; exact h

theorem semiNfB_of_semiMulAllowed {x : StaticExpr}
    (h : semiMulAllowed x = true) : semiNfB x = true := by
  rw [semiMulAllowed, Bool.or_eq_true, Bool.or_eq_true] at h
  rcases h with (h | h) | h
  · cases x <;> first | rfl | (rw [isPhB] at h; cases h)
  · exact semiNfB_of_flatAdd h
  · exact semiNfB_of_flatMul h

/- One pass of `simplify` always lands in the semi normal form. -/
theorem semiNf_simplify (e : StaticExpr) : semiNfB (simplify e) = true := by
  cases e with
  | Placeholder p => rw [simplify_Placeholder]; rfl
  | Number n => rw [simplify_Number]; rfl
  | Add l =>
    rcases simplify_Add_shape l with h | h | h | h
    · exact semiNfB_of_atom (Or.inl h)
    · exact semiNfB_of_atom (Or.inr h)
    · exact semiNfB_of_flatMul h
    · exact semiNfB_of_flatAdd h
  | Mul l =>
    rw [simplify_Mul]
    have hsh : ∀ y ∈ (expand_mul (.Mul l)).map simplify,
        isNumB y = true ∨ semiMulAllowed y = true := by
      intro y hy
      rcases List.mem_map.1 hy with ⟨x, hx, rfl⟩
      have hnm := expand_mul_not_mul _ x hx
      cases x with
      | Placeholder p =>
        rw [simplify_Placeholder]
        exact Or.inr (by rw [semiMulAllowed]; rfl)
      | Number n => rw [simplify_Number]; exact Or.inl rfl
      | Mul l2 => rw [isMulB] at hnm; cases hnm
      | Add l2 =>
        rcases simplify_Add_shape l2 with h | h | h | h
        · exact Or.inr (by rw [semiMulAllowed, h]; rfl)
        · exact Or.inl h
        · exact Or.inr (by rw [semiMulAllowed, h]; simp)
        · exact Or.inr (by rw [semiMulAllowed, h]; simp)
    have hnode := @rebuild_nodeOk semiMulAllowed _ false hsh
      (fun y hy => isNumB_false_of_semiMulAllowed hy)
    rcases nodeOk_false_cases hnode with h2 | h2 | ⟨l2, heq, hok⟩
    · exact semiNfB_of_atom (Or.inr h2)
    · exact semiNfB_of_semiMulAllowed h2
    · rw [heq]
      rw [semiNfB]
      exact hok

/-! ## `simplify` is the identity on normal forms -/

theorem isMulB_false_of_atom {x : StaticExpr}
    (h : isPhB x = true ∨ isNumB x = true) : isMulB x = false := by
  cases x with
  | Placeholder p => rfl
  | Number n => rfl
  | Add l => rfl
  | Mul l =>
    rcases h with h | h
    · rw [isPhB] at h; cases h
    · rw [isNumB] at h; cases h

theorem isMulB_false_of_flatAdd {x : StaticExpr} (h : flatAddB x = true) :
    isMulB x = false := by
  cases x with
  | Placeholder p => rfl
  | Number n => rfl
  | Add l => rfl
  | Mul l => rw [flatAddB] at h; cases h

theorem isAddB_false_of_addAllowed {x : StaticExpr} (h : addAllowed x = true) :
    isAddB x = false := by
  cases x with
  | Placeholder p => rfl
  | Number n => rfl
  | Mul l => rfl
  | Add l =>
    rw [addAllowed, Bool.or_eq_true] at h
    rcases h with h | h
    · rw [isPhB] at h; cases h
    · rw [flatMulB] at h; cases h

theorem expand_add_atom {x : StaticExpr}
    (h : isPhB x = true ∨ isNumB x = true) : expand_add x = [x] := by
  cases x with
  | Placeholder p => rfl
  | Number n => rfl
  | Add l =>
    rcases h with h | h
    · rw [isPhB] at h; cases h
    · rw [isNumB] at h; cases h
  | Mul l =>
    rcases h with h | h
    · rw [isPhB] at h; cases h
    · rw [isNumB] at h; cases h

theorem expand_mul_non_mul {x : StaticExpr} (h : isMulB x = false) :
    expand_mul x = [x] := by
  cases x with
  | Placeholder p => rfl
  | Number n => rfl
  | Add l => rfl
  | Mul l => rw [isMulB] at h; cases h

theorem flatMap_id_of {l : List StaticExpr} {f : StaticExpr → List StaticExpr}
    (h : ∀ c ∈ l, f c = [c]) : l.flatMap f = l := by
  induction l with
  | nil => rfl
  | cons x xs ih =>
    rw [List.flatMap_cons, h x (by simp), ih (fun c hc => h c (by simp [hc]))]
    rfl

theorem get_cross_singletons (l : List StaticExpr) :
    get_cross (l.map (fun x => [x])) = [l] := by
  suffices H : ∀ (l : List StaticExpr) (accs : List (List StaticExpr)),
      (l.map fun x => [x]).foldl (fun outer inner =>
        outer.flatMap (fun w => inner.map (fun item => w ++ [item]))) accs =
      accs.map (· ++ l) by
    rw [get_cross, H]
    simp
  intro l
  induction l with
  | nil => intro accs; simp
  | cons x xs ih =>
    intro accs
    rw [List.map_cons, List.foldl_cons, ih]
    have hstep : (accs.flatMap fun w => ([x].map (fun item => w ++ [item]))) =
        accs.map (· ++ [x]) := by
      induction accs with
      | nil => rfl
      | cons a as ih2 =>
        rw [List.flatMap_cons, ih2]
        rfl
    rw [hstep, List.map_map]
    apply List.map_congr_left
    intro w _
    simp

theorem expand_add_flatMul {x : StaticExpr} (h : flatMulB x = true) :
    expand_add x = [x] := by
  cases x with
  | Placeholder p => rfl
  | Number n => rfl
  | Add l => rw [flatMulB] at h; cases h
  | Mul l =>
    rw [flatMulB] at h
    rw [expand_add, expand_addM_eq]
    have hmap : l.map expand_add = l.map (fun x => [x]) := by
      apply List.map_congr_left
      intro c hc
      rcases okList_mem h c hc with hc2 | hc2
      · exact expand_add_atom (Or.inl hc2)
      · exact expand_add_atom (Or.inr hc2)
    rw [hmap, get_cross_singletons]
    rfl

theorem simplify_flatMul_fix {x : StaticExpr} (h : flatMulB x = true) :
    simplify x = x := by
  cases x with
  | Placeholder p => exact simplify_Placeholder p
  | Number n => exact simplify_Number n
  | Add l => rw [flatMulB] at h; cases h
  | Mul l =>
    rw [flatMulB] at h
    rw [simplify_Mul]
    have he : expand_mul (.Mul l) = l := by
      rw [expand_mul, expand_mulL_eq]
      apply flatMap_id_of
      intro c hc
      exact expand_mul_non_mul (isMulB_false_of_atom (okList_mem h c hc))
    have hmap : l.map simplify = l :=
      map_simplify_id (fun y hy => simplify_id_of_atom (okList_mem h y hy))
    rw [he, hmap,
      @rebuild_eq_self isPhB false _ h (fun y hy => isNumB_false_of_ph hy)]
    rfl

theorem simplify_flatAdd_fix {x : StaticExpr} (h : flatAddB x = true) :
    simplify x = x := by
  cases x with
  | Placeholder p => exact simplify_Placeholder p
  | Number n => exact simplify_Number n
  | Mul l => rw [flatAddB] at h; cases h
  | Add l =>
    rw [flatAddB] at h
    rw [simplify_Add]
    have he : expand_add (.Add l) = l := by
      rw [expand_add, expand_addL_eq]
      apply flatMap_id_of
      intro c hc
      rcases okList_mem h c hc with hc2 | hc2
      · rw [addAllowed, Bool.or_eq_true] at hc2
        rcases hc2 with hc2 | hc2
        · exact expand_add_atom (Or.inl hc2)
        · exact expand_add_flatMul hc2
      · exact expand_add_atom (Or.inr hc2)
    have hmap : l.map simplify = l := by
      apply map_simplify_id
      intro y hy
      rcases okList_mem h y hy with hy2 | hy2
      · rw [addAllowed, Bool.or_eq_true] at hy2
        rcases hy2 with hy2 | hy2
        · exact simplify_id_of_atom (Or.inl hy2)
        · exact simplify_flatMul_fix hy2
      · exact simplify_id_of_atom (Or.inr hy2)
    rw [he, hmap,
      @rebuild_eq_self addAllowed true _ h
        (fun y hy => isNumB_false_of_addAllowed hy)]
    rfl

theorem nf_fix {e : StaticExpr} (h : nfB e = true) : simplify e = e := by
  cases e with
  | Placeholder p => exact simplify_Placeholder p
  | Number n => exact simplify_Number n
  | Add l =>
    rw [nfB] at h
    exact @simplify_flatAdd_fix (.Add l) (by rw [flatAddB]; exact h)
  | Mul l =>
    rw [nfB] at h
    rw [simplify_Mul]
    have he : expand_mul (.Mul l) = l := by
      rw [expand_mul, expand_mulL_eq]
      apply flatMap_id_of
      intro c hc
      apply expand_mul_non_mul
      rcases okList_mem h c hc with hc2 | hc2
      · rw [nfMulAllowed, Bool.or_eq_true] at hc2
        rcases hc2 with hc2 | hc2
        · exact isMulB_false_of_atom (Or.inl hc2)
        · exact isMulB_false_of_flatAdd hc2
      · exact isMulB_false_of_atom (Or.inr hc2)
    have hmap : l.map simplify = l := by
      apply map_simplify_id
      intro y hy
      rcases okList_mem h y hy with hy2 | hy2
      · rw [nfMulAllowed, Bool.or_eq_true] at hy2
        rcases hy2 with hy2 | hy2
        · exact simplify_id_of_atom (Or.inl hy2)
        · exact simplify_flatAdd_fix hy2
      · exact simplify_id_of_atom (Or.inr hy2)
    rw [he, hmap,
      @rebuild_eq_self nfMulAllowed false _ h
        (fun y hy => isNumB_false_of_nfMulAllowed hy)]
    rfl

theorem nfB_of_atom {x : StaticExpr}
    (h : isPhB x = true ∨ isNumB x = true) : nfB x = true := by
  cases x with
  | Placeholder p => rfl
  | Number n => rfl
  | Add l =>
    rcases h with h | h
    · rw [isPhB] at h; cases h
    · rw [isNumB] at h; cases h
  | Mul l =>
    rcases h with h | h
    · rw [isPhB] at h; cases h
    · rw [isNumB] at h; cases h

theorem nfB_of_nfMulAllowed {x : StaticExpr} (h : nfMulAllowed x = true) :
    nfB x = true := by
  rw [nfMulAllowed, Bool.or_eq_true] at h
  rcases h with h | h
  · exact nfB_of_atom (Or.inl h)
  · cases x with
    | Placeholder p => rfl
    | Number n => rfl
    | Mul l => rw [flatAddB] at h; cases h
    | Add l => rw [flatAddB] at h; rw [nfB]; exact h

/- The second pass of `simplify` lands in the full normal form. -/
theorem semiNf_nf {e : StaticExpr} (h : semiNfB e = true) :
    nfB (simplify e) = true := by
  cases e with
  | Placeholder p => rw [simplify_Placeholder]; rfl
  | Number n => rw [simplify_Number]; rfl
  | Add l =>
    rw [semiNfB] at h
    rw [@simplify_flatAdd_fix (.Add l) (by rw [flatAddB]; exact h)]
    rw [nfB]
    exact h
  | Mul l =>
    rw [semiNfB] at h
    rw [simplify_Mul]
    have hel : ∀ x ∈ expand_mul (.Mul l),
        isNumB x = true ∨ nfMulAllowed x = true := by
      intro x hx
      rw [expand_mul, expand_mulL_eq] at hx
      rcases List.mem_flatMap.1 hx with ⟨c, hc, hxc⟩
      rcases okList_mem h c hc with hc2 | hc2
      · rw [semiMulAllowed, Bool.or_eq_true, Bool.or_eq_true] at hc2
        rcases hc2 with (hc2 | hc2) | hc2
        · rw [expand_mul_non_mul (isMulB_false_of_atom (Or.inl hc2))] at hxc
          rw [List.mem_singleton.1 hxc]
          exact Or.inr (by rw [nfMulAllowed, hc2]; rfl)
        · rw [expand_mul_non_mul (isMulB_false_of_flatAdd hc2)] at hxc
          rw [List.mem_singleton.1 hxc]
          exact Or.inr (by rw [nfMulAllowed, hc2]; simp)
        · -- a flat product child: its factors are spliced in
          cases c with
          | Placeholder p => rw [flatMulB] at hc2; cases hc2
          | Number n => rw [flatMulB] at hc2; cases hc2
          | Add l2 => rw [flatMulB] at hc2; cases hc2
          | Mul l2 =>
            rw [flatMulB] at hc2
            rw [expand_mul, expand_mulL_eq] at hxc
            have he2 : l2.flatMap expand_mul = l2 := by
              apply flatMap_id_of
              intro d hd
              exact expand_mul_non_mul (isMulB_false_of_atom (okList_mem hc2 d hd))
            rw [he2] at hxc
            rcases okList_mem hc2 x hxc with hx2 | hx2
            · exact Or.inr (by rw [nfMulAllowed, hx2]; rfl)
            · exact Or.inl hx2
      · rw [expand_mul_non_mul (isMulB_false_of_atom (Or.inr hc2))] at hxc
        rw [List.mem_singleton.1 hxc]
        exact Or.inl hc2
    have hid : ∀ x ∈ expand_mul (.Mul l), simplify x = x := by
      intro x hx
      rcases hel x hx with h2 | h2
      · exact simplify_id_of_atom (Or.inr h2)
      · rw [nfMulAllowed, Bool.or_eq_true] at h2
        rcases h2 with h2 | h2
        · exact simplify_id_of_atom (Or.inl h2)
        · exact simplify_flatAdd_fix h2
    rw [map_simplify_id hid]
    have hnode := @rebuild_nodeOk nfMulAllowed _ false hel
      (fun x hx => isNumB_false_of_nfMulAllowed hx)
    rcases nodeOk_false_cases hnode with h2 | h2 | ⟨l2, heq, hok⟩
    · exact nfB_of_atom (Or.inr h2)
    · exact nfB_of_nfMulAllowed h2
    · rw [heq, nfB]
      exact hok

/-! ## Deep structural facts about `simplify` output (claim C3) -/

/- `goodB e`: in every `Add`/`Mul` node of `e`, no `Add` child sits directly
under an `Add`, at most one child is a `Number` and it is the last child,
and no node has exactly one child. -/
mutual

def goodB : StaticExpr → Bool
  | .Add l => goodL l && l.all (fun x => !isAddB x) &&
      l.dropLast.all (fun x => !isNumB x) && decide (l.length ≠ 1)
  | .Mul l => goodL l && l.dropLast.all (fun x => !isNumB x) &&
      decide (l.length ≠ 1)
  | .Placeholder _ => true
  | .Number _ => true

def goodL : List StaticExpr → Bool
  | [] => true
  | x :: xs => goodB x && goodL xs

end

theorem goodL_of_mem {l : List StaticExpr}
    (h : ∀ x ∈ l, goodB x = true) : goodL l = true := by
  induction l with
  | nil => rfl
  | cons x xs ih =>
    rw [goodL, Bool.and_eq_true]
    exact ⟨h x (by simp), ih (fun y hy => h y (by simp [hy]))⟩

theorem goodB_Add_intro {l : List StaticExpr}
    (h1 : ∀ x ∈ l, goodB x = true) (h2 : ∀ x ∈ l, isAddB x = false)
    (h3 : ∀ x ∈ l.dropLast, isNumB x = false) (h4 : l.length ≠ 1) :
    goodB (.Add l) = true := by
  rw [goodB]
  simp only [Bool.and_eq_true, decide_eq_true_eq, List.all_eq_true]
  refine ⟨⟨⟨goodL_of_mem h1, ?_⟩, ?_⟩, h4⟩
  · intro x hx
    rw [h2 x hx]
    rfl
  · intro x hx
    rw [h3 x hx]
    rfl

theorem goodB_Mul_intro {l : List StaticExpr}
    (h1 : ∀ x ∈ l, goodB x = true)
    (h3 : ∀ x ∈ l.dropLast, isNumB x = false) (h4 : l.length ≠ 1) :
    goodB (.Mul l) = true := by
  rw [goodB]
  simp only [Bool.and_eq_true, decide_eq_true_eq, List.all_eq_true]
  refine ⟨⟨goodL_of_mem h1, ?_⟩, h4⟩
  intro x hx
  rw [h3 x hx]
  rfl

theorem goodB_atom {x : StaticExpr}
    (h : isPhB x = true ∨ isNumB x = true) : goodB x = true := by
  cases x with
  | Placeholder p => rfl
  | Number n => rfl
  | Add l =>
    rcases h with h | h
    · rw [isPhB] at h; cases h
    · rw [isNumB] at h; cases h
  | Mul l =>
    rcases h with h | h
    · rw [isPhB] at h; cases h
    · rw [isNumB] at h; cases h

theorem goodB_of_flatMul {x : StaticExpr} (h : flatMulB x = true) :
    goodB x = true := by
  cases x with
  | Placeholder p => rfl
  | Number n => rfl
  | Add l => rw [flatMulB] at h; cases h
  | Mul l =>
    rw [flatMulB] at h
    rcases okList_elim h with ⟨hlen, hdrop, _⟩
    refine goodB_Mul_intro ?_ ?_ hlen
    · intro y hy
      exact goodB_atom (okList_mem h y hy)
    · intro y hy
      exact isNumB_false_of_ph (hdrop y hy)

theorem goodB_of_flatAdd {x : StaticExpr} (h : flatAddB x = true) :
    goodB x = true := by
  cases x with
  | Placeholder p => rfl
  | Number n => rfl
  | Mul l => rw [flatAddB] at h; cases h
  | Add l =>
    rw [flatAddB] at h
    rcases okList_elim h with ⟨hlen, hdrop, _⟩
    refine goodB_Add_intro ?_ ?_ ?_ hlen
    · intro y hy
      rcases okList_mem h y hy with hy2 | hy2
      · rw [addAllowed, Bool.or_eq_true] at hy2
        rcases hy2 with hy2 | hy2
        · exact goodB_atom (Or.inl hy2)
        · exact goodB_of_flatMul hy2
      · exact goodB_atom (Or.inr hy2)
    · intro y hy
      rcases okList_mem h y hy with hy2 | hy2
      · exact isAddB_false_of_addAllowed hy2
      · cases y with
        | Number n => rfl
        | Placeholder p => rfl
        | Mul l2 => rfl
        | Add l2 => rw [isNumB] at hy2; cases hy2
    · intro y hy
      exact isNumB_false_of_addAllowed (hdrop y hy)

theorem goodB_of_semiNf {e : StaticExpr} (h : semiNfB e = true) :
    goodB e = true := by
  cases e with
  | Placeholder p => rfl
  | Number n => rfl
  | Add l =>
    rw [semiNfB] at h
    exact @goodB_of_flatAdd (.Add l) (by rw [flatAddB]; exact h)
  | Mul l =>
    rw [semiNfB] at h
    rcases okList_elim h with ⟨hlen, hdrop, _⟩
    refine goodB_Mul_intro ?_ ?_ hlen
    · intro y hy
      rcases okList_mem h y hy with hy2 | hy2
      · rw [semiMulAllowed, Bool.or_eq_true, Bool.or_eq_true] at hy2
        rcases hy2 with (hy2 | hy2) | hy2
        · exact goodB_atom (Or.inl hy2)
        · exact goodB_of_flatAdd hy2
        · exact goodB_of_flatMul hy2
      · exact goodB_atom (Or.inr hy2)
    · intro y hy
      exact isNumB_false_of_semiMulAllowed (hdrop y hy)

/-! ## Claims C3 and C8 -/

/-- C3 (counterexample): contrary to the claim, `simplify` does not collapse
a `Mul` containing `Number 0` alongside a non-numeric child (here a
`Placeholder`) to the single node `Number 0` — the zero survives as the
folded trailing `Number` child; and one pass of `simplify` can leave a
`Mul` directly inside a `Mul` (the `Add`-singleton collapse re-creates the
nesting), so the flattening is not complete either. -/
theorem C3_counterexample :
    simplify (.Mul [.Placeholder 0, .Number 0]) =
      .Mul [.Placeholder 0, .Number 0] ∧
    simplify (.Mul [.Placeholder 0, .Number 0]) ≠ .Number 0 ∧
    simplify (.Mul [.Add [.Mul [.Placeholder 0, .Placeholder 1]],
        .Placeholder 2]) =
      .Mul [.Mul [.Placeholder 0, .Placeholder 1], .Placeholder 2] := by
  have h1 : simplify (.Mul [.Placeholder 0, .Number 0]) =
      .Mul [.Placeholder 0, .Number 0] := by
    simp [simplify_Mul, expand_mul, expand_mulL, rebuild, fold_numbers,
      pushVal, assembleV, simplify_Placeholder, simplify_Number]
  refine ⟨h1, ?_, ?_⟩
  · rw [h1]
    exact fun hc => StaticExpr.noConfusion hc
  · simp [simplify_Mul, simplify_Add, expand_mul, expand_mulL, expand_add,
      expand_addL, expand_addM, get_cross, rebuild, fold_numbers, pushVal,
      assembleV, simplify_Placeholder, simplify_Number]

/-- C3 (amended): for every `StaticExpr` e, each `Add`/`Mul` node of
`simplify e` has no `Add` child directly under an `Add`, carries all its
numeric constants folded into at most one `Number` child placed last, and
never has exactly one child.  (The claimed collapse of a `Mul` containing
`Number 0` to `Number 0`, and the full flattening of `Mul` inside `Mul`,
both fail — see the counterexample.) -/
theorem C3_simplify_shape (e : StaticExpr) : goodB (simplify e) = true :=
  goodB_of_semiNf (semiNf_simplify e)

/-- C8 (counterexample): `simplify` is not idempotent: on
`Mul [Add [Mul [p0, p1]], p2]` the first pass collapses the inner
single-summand `Add` to the product `Mul [p0, p1]`, leaving a `Mul` inside
a `Mul` that only the second pass flattens. -/
theorem C8_counterexample :
    simplify (simplify (.Mul [.Add [.Mul [.Placeholder 0, .Placeholder 1]],
        .Placeholder 2])) ≠
      simplify (.Mul [.Add [.Mul [.Placeholder 0, .Placeholder 1]],
        .Placeholder 2]) := by
  have h1 : simplify (.Mul [.Add [.Mul [.Placeholder 0, .Placeholder 1]],
      .Placeholder 2]) =
      .Mul [.Mul [.Placeholder 0, .Placeholder 1], .Placeholder 2] := by
    simp [simplify_Mul, simplify_Add, expand_mul, expand_mulL, expand_add,
      expand_addL, expand_addM, get_cross, rebuild, fold_numbers, pushVal,
      assembleV, simplify_Placeholder, simplify_Number]
  have h2 : simplify (.Mul [.Mul [.Placeholder 0, .Placeholder 1],
      .Placeholder 2]) =
      .Mul [.Placeholder 0, .Placeholder 1, .Placeholder 2] := by
    simp [simplify_Mul, expand_mul, expand_mulL, rebuild, fold_numbers,
      pushVal, assembleV, simplify_Placeholder, simplify_Number]
  rw [h1, h2]
  intro hc
  injection hc with hl
  injection hl with hx _
  exact StaticExpr.noConfusion hx

/-- C8 (amended): simplification reaches a fixed point after two passes:
for every `StaticExpr` e, `simplify (simplify (simplify e)) =
simplify (simplify e)`.  One pass is not enough (see the counterexample),
because the single-child collapse of an `Add` can re-introduce a `Mul`
directly under a `Mul`. -/
theorem C8_simplify_twice_idempotent (e : StaticExpr) :
    simplify (simplify (simplify e)) = simplify (simplify e) :=
  nf_fix (semiNf_nf (semiNf_simplify e))

end StaticExpr

/-! # Expr over qubits (src/src/expr.rs) and Constraint (src/src/model.rs) -/

/- `Expr<Tp, Tq, Tc, R>` with label types instantiated by `ℕ` and `R := ℚ`. -/
inductive Expr where
  | Placeholder : ℕ → Expr
  | Add : Expr → Expr → Expr
  | Mul : Expr → Expr → Expr
  | Number : ℚ → Expr
  | Binary : ℕ → Expr
  | Spin : ℕ → Expr
  | Constr : ℕ → Expr → Expr
  | WithPenalty : Expr → Expr → Expr

namespace Expr

/-- `Expr::calculate` (src/src/expr.rs, lines 85-128): evaluation under a
partial assignment `map` of qubits; `none` models `None`.  The source's
`e.as_f64() == 0.0` test is the exact test `e = 0` over `ℚ`. -/
def calculate (map : ℕ → Option Bool) : Expr → Option ℚ
  | .Placeholder _ => none
  | .Add lhs rhs =>
    match calculate map lhs, calculate map rhs with
    | some a, some b => some (a + b)
    | some _, none => none
    | none, some _ => none
    | none, none => none
  | .Mul lhs rhs =>
    match calculate map lhs, calculate map rhs with
    | some a, some b => some (a * b)
    | some e, none => if e = 0 then some 0 else none
    | none, some e => if e = 0 then some 0 else none
    | none, none => none
  | .Number n => some n
  | .Binary lb =>
    match map lb with
    | some b => if b then some 1 else some 0
    | none => none
  | .Spin lb =>
    match map lb with
    | some b => if b then some 1 else some (-1)
    | none => none
  | .Constr _ e => calculate map e
  | .WithPenalty e _ => calculate map e

/- The qubits `calculate` may read (for `WithPenalty` only the expression
part is evaluated, matching the source). -/
def qubits : Expr → List ℕ
  | .Placeholder _ => []
  | .Number _ => []
  | .Binary q => [q]
  | .Spin q => [q]
  | .Add a b => qubits a ++ qubits b
  | .Mul a b => qubits a ++ qubits b
  | .Constr _ e => qubits e
  | .WithPenalty e _ => qubits e

/- Whether a `Placeholder` node is reachable by `calculate`. -/
def hasPh : Expr → Bool
  | .Placeholder _ => true
  | .Number _ => false
  | .Binary _ => false
  | .Spin _ => false
  | .Add a b => hasPh a || hasPh b
  | .Mul a b => hasPh a || hasPh b
  | .Constr _ e => hasPh e
  | .WithPenalty e _ => hasPh e

theorem calculate_none_sources (map : ℕ → Option Bool) :
    ∀ e : Expr, calculate map e = none →
      hasPh e = true ∨ ∃ q ∈ qubits e, map q = none := by
  intro e
  induction e with
  | Placeholder p => intro _; exact Or.inl rfl
  | Number n => intro h; rw [calculate] at h; cases h
  | Binary q =>
    intro h
    rw [calculate] at h
    cases hm : map q with
    | none => exact Or.inr ⟨q, by simp [qubits], hm⟩
    | some b => rw [hm] at h; cases b <;> simp at h
  | Spin q =>
    intro h
    rw [calculate] at h
    cases hm : map q with
    | none => exact Or.inr ⟨q, by simp [qubits], hm⟩
    | some b => rw [hm] at h; cases b <;> simp at h
  | Add a b iha ihb =>
    intro h
    rw [calculate] at h
    cases ha : calculate map a with
    | none =>
      rcases iha ha with h2 | ⟨q, hq, hmq⟩
      · exact Or.inl (by rw [hasPh, h2]; rfl)
      · exact Or.inr ⟨q, by simp [qubits, hq], hmq⟩
    | some x =>
      cases hb : calculate map b with
      | none =>
        rcases ihb hb with h2 | ⟨q, hq, hmq⟩
        · exact Or.inl (by rw [hasPh, h2]; simp)
        · exact Or.inr ⟨q, by simp [qubits, hq], hmq⟩
      | some y => rw [ha, hb] at h; cases h
  | Mul a b iha ihb =>
    intro h
    rw [calculate] at h
    cases ha : calculate map a with
    | none =>
      rcases iha ha with h2 | ⟨q, hq, hmq⟩
      · exact Or.inl (by rw [hasPh, h2]; rfl)
      · exact Or.inr ⟨q, by simp [qubits, hq], hmq⟩
    | some x =>
      cases hb : calculate map b with
      | none =>
        rcases ihb hb with h2 | ⟨q, hq, hmq⟩
        · exact Or.inl (by rw [hasPh, h2]; simp)
        · exact Or.inr ⟨q, by simp [qubits, hq], hmq⟩
      | some y => rw [ha, hb] at h; cases h
  | Constr lb e ih =>
    intro h
    rw [calculate] at h
    rcases ih h with h2 | ⟨q, hq, hmq⟩
    · exact Or.inl (by rw [hasPh]; exact h2)
    · exact Or.inr ⟨q, by simp [qubits, hq], hmq⟩
  | WithPenalty e p ih _ =>
    intro h
    rw [calculate] at h
    rcases ih h with h2 | ⟨q, hq, hmq⟩
    · exact Or.inl (by rw [hasPh]; exact h2)
    · exact Or.inr ⟨q, by simp [qubits, hq], hmq⟩

/-- C6: `Expr::calculate` with a partial map returns `None` only when a
`Placeholder` is reached or a qubit read by the evaluation is missing from
the map; a reached `Placeholder` yields `None`, a missing `Binary`/`Spin`
qubit yields `None`, `Add` propagates `None` from either side, and the one
exception is multiplication: a `Mul` whose one operand evaluates to `0`
yields `Some 0` even when the other operand is unknown, while a nonzero
known operand multiplied by an unknown one stays `None`. -/
theorem C6_calculate_partial_map (map : ℕ → Option Bool) :
    (∀ e : Expr, calculate map e = none →
        hasPh e = true ∨ ∃ q ∈ qubits e, map q = none) ∧
    (∀ p : ℕ, calculate map (.Placeholder p) = none) ∧
    (∀ q : ℕ, map q = none →
        calculate map (.Binary q) = none ∧ calculate map (.Spin q) = none) ∧
    (∀ a b : Expr, calculate map a = none ∨ calculate map b = none →
        calculate map (.Add a b) = none) ∧
    (∀ a b : Expr, calculate map a = some 0 →
        calculate map (.Mul a b) = some 0) ∧
    (∀ a b : Expr, calculate map b = some 0 →
        calculate map (.Mul a b) = some 0) ∧
    (∀ (a b : Expr) (x : ℚ), calculate map a = some x → x ≠ 0 →
        calculate map b = none → calculate map (.Mul a b) = none) := by
  refine ⟨calculate_none_sources map, fun p => rfl, ?_, ?_, ?_, ?_, ?_⟩
  · intro q hq
    constructor
    · rw [calculate, hq]
    · rw [calculate, hq]
  · intro a b h
    rcases h with h | h
    · rw [calculate, h]
      cases calculate map b <;> rfl
    · rw [calculate, h]
      cases calculate map a <;> rfl
  · intro a b h
    rw [calculate, h]
    cases hb : calculate map b with
    | none => simp
    | some y => simp
  · intro a b h
    rw [calculate, h]
    cases ha : calculate map a with
    | none => simp
    | some y => simp
  · intro a b x ha hx hb
    rw [calculate, ha, hb]
    simp [hx]

/-- C6 (witness): the exception clause and a `None` propagation applied at
concrete inputs, via the main theorem. -/
theorem C6_witness :
    calculate (fun _ => none) (.Mul (.Number 0) (.Binary 5)) = some 0 ∧
    calculate (fun _ => none) (.Add (.Number 1) (.Binary 5)) = none ∧
    calculate (fun _ => none) (.Mul (.Number 2) (.Binary 5)) = none := by
  refine ⟨?_, ?_, ?_⟩
  · exact (C6_calculate_partial_map (fun _ => none)).2.2.2.2.1 (.Number 0)
      (.Binary 5) rfl
  · exact (C6_calculate_partial_map (fun _ => none)).2.2.2.1 (.Number 1)
      (.Binary 5) (Or.inr rfl)
  · exact (C6_calculate_partial_map (fun _ => none)).2.2.2.2.2.2 (.Number 2)
      (.Binary 5) 2 rfl (by norm_num) rfl

end Expr

/- `Constraint<Tp, Tq, Tc, R>` (src/src/model.rs, lines 119-130): the label,
the expression over qubits, and the adaptive-weight placeholder. -/
structure Constr where
  label : Option ℕ
  expr : Expr
  placeholder : Option ℕ

namespace Constr

/-- `Constraint::is_satisfied` (src/src/model.rs, lines 166-172): evaluate
the expression; unknown means satisfied; a known value satisfies the
constraint iff `|value| < 1.0e-4` (strictly). -/
def is_satisfied (c : Constr) (map : ℕ → Option Bool) : Bool :=
  match Expr.calculate map c.expr with
  | some i => decide (|i| < 1/10000)
  | none => true

/-- C7 (counterexample): a constraint whose expression evaluates exactly to
`1e-4` lies in the closed interval `[-1e-4, 1e-4]` of the claim but is
reported unsatisfied, because the source comparison `|value| < 1.0e-4` is
strict. -/
theorem C7_counterexample :
    ((1 : ℚ)/10000) ∈ Set.Icc (-(1/10000) : ℚ) (1/10000) ∧
    is_satisfied ⟨some 0, .Number (1/10000), none⟩ (fun _ => none) = false := by
  constructor
  · constructor <;> norm_num
  · rw [is_satisfied]
    norm_num [Expr.calculate]
    rw [abs_of_nonneg (by norm_num : (0 : ℚ) ≤ 1/10000)]

/-- C7 (amended): `is_satisfied` returns `true` when the evaluation is
unknown (vacuous satisfaction); on a known value `x` it returns `true` iff
`|x| < 1e-4` strictly — so the open interval `(-1e-4, 1e-4)` is satisfied,
but the endpoints `±1e-4` themselves are not. -/
theorem C7_is_satisfied (c : Constr) (map : ℕ → Option Bool) :
    (Expr.calculate map c.expr = none → is_satisfied c map = true) ∧
    (∀ x : ℚ, Expr.calculate map c.expr = some x →
      (is_satisfied c map = true ↔ |x| < 1/10000)) := by
  constructor
  · intro h
    rw [is_satisfied, h]
  · intro x h
    rw [is_satisfied, h]
    simp

/-- C7 (witness): both branches exercised at concrete constraints through
the main theorem. -/
theorem C7_witness :
    is_satisfied ⟨some 0, .Binary 0, none⟩ (fun _ => none) = true ∧
    (is_satisfied ⟨some 0, .Number 0, none⟩ (fun _ => none) = true ↔
      |(0 : ℚ)| < 1/10000) :=
  ⟨(C7_is_satisfied ⟨some 0, .Binary 0, none⟩ (fun _ => none)).1 rfl,
   (C7_is_satisfied ⟨some 0, .Number 0, none⟩ (fun _ => none)).2 0 rfl⟩

/-- `CompiledModel::get_unsatisfied_constraints` (src/src/compiled.rs,
lines 176-184): the constraints not satisfied under the assignment. -/
def get_unsatisfied_constraints (cs : List Constr) (map : ℕ → Option Bool) :
    List Constr :=
  cs.filter (fun c => !is_satisfied c map)

/-- The candidate-processing block of `SimpleSolver::solve_with_constraints`
(src/src/solve.rs, lines 198-218): walk the unsatisfied constraints pushing
each present label; the early-return flag is `constraint_labels.len() == 0`.
(The placeholder-point bumping of the same loop does not affect the flag.) -/
def process_candidate (cs : List Constr) (map : ℕ → Option Bool) :
    List ℕ × Bool :=
  let labels := (get_unsatisfied_constraints cs map).foldl
    (fun acc c => match c.label with
      | some lb => acc ++ [lb]
      | none => acc) []
  (labels, decide (labels.length = 0))

theorem foldl_push_labels (cs : List Constr) (acc : List ℕ) :
    cs.foldl (fun acc c => match c.label with
      | some lb => acc ++ [lb]
      | none => acc) acc =
      acc ++ cs.filterMap (fun c => c.label) := by
  induction cs generalizing acc with
  | nil => simp
  | cons c rest ih =>
    rw [List.foldl_cons]
    cases hl : c.label with
    | some lb =>
      rw [ih, List.filterMap_cons, hl]
      simp
    | none =>
      rw [ih, List.filterMap_cons, hl]

/-- C4 (counterexample): an unsatisfied constraint without a label (such as
the gadget constraints pushed by order reduction with
`Constraint::from_raw(None, _, None)`) does not prevent the early return:
the model below has a nonempty unsatisfied-constraint list, yet the
early-return flag is set. -/
theorem C4_counterexample :
    get_unsatisfied_constraints [⟨none, .Number 1, none⟩] (fun _ => none)
      ≠ [] ∧
    (process_candidate [⟨none, .Number 1, none⟩] (fun _ => none)).2 = true := by
  have hsat : is_satisfied ⟨none, .Number 1, none⟩ (fun _ => none) = false := by
    rw [is_satisfied]
    norm_num [Expr.calculate]
  have hun : get_unsatisfied_constraints [⟨none, .Number 1, none⟩]
      (fun _ => none) = [⟨none, .Number 1, none⟩] := by
    rw [get_unsatisfied_constraints, List.filter_cons, hsat]
    rfl
  constructor
  · rw [hun]
    exact fun hc => List.noConfusion hc
  · rw [process_candidate, hun]
    rfl

/-- C4 (amended): the early return of `solve_with_constraints` after a new
best candidate fires iff no unsatisfied constraint carries a label (not iff
there are no unsatisfied constraints: unlabeled ones are invisible to the
flag); violations are not errors — they are returned as the list of labels
of the unsatisfied labeled constraints alongside the solution. -/
theorem C4_early_return (cs : List Constr) (map : ℕ → Option Bool) :
    (process_candidate cs map).1 =
      (get_unsatisfied_constraints cs map).filterMap (fun c => c.label) ∧
    ((process_candidate cs map).2 = true ↔
      ∀ c ∈ get_unsatisfied_constraints cs map, c.label = none) := by
  have hl : (process_candidate cs map).1 =
      (get_unsatisfied_constraints cs map).filterMap (fun c => c.label) := by
    rw [process_candidate]
    rw [foldl_push_labels]
    rfl
  refine ⟨hl, ?_⟩
  rw [show (process_candidate cs map).2 =
    decide ((process_candidate cs map).1.length = 0) from rfl]
  rw [hl]
  simp only [decide_eq_true_eq, List.length_eq_zero]
  exact List.filterMap_eq_nil

/-- C4 (witness): with one unsatisfied labeled constraint the flag is off
and its label is reported; obtained from the main theorem at a concrete
model. -/
theorem C4_witness :
    (process_candidate [⟨some 7, .Number 1, none⟩] (fun _ => none)).2 = false ∧
    (process_candidate [⟨some 7, .Number 1, none⟩] (fun _ => none)).1 = [7] := by
  have hsat : is_satisfied ⟨some 7, .Number 1, none⟩ (fun _ => none) = false := by
    rw [is_satisfied]
    norm_num [Expr.calculate]
  have hun : get_unsatisfied_constraints [⟨some 7, .Number 1, none⟩]
      (fun _ => none) = [⟨some 7, .Number 1, none⟩] := by
    rw [get_unsatisfied_constraints, List.filter_cons, hsat]
    rfl
  constructor
  · have h := (C4_early_return [⟨some 7, .Number 1, none⟩] (fun _ => none)).2
    by_contra hc
    rw [Bool.not_eq_false] at hc
    have := h.1 hc ⟨some 7, .Number 1, none⟩ (by rw [hun]; simp)
    cases this
  · rw [(C4_early_return [⟨some 7, .Number 1, none⟩] (fun _ => none)).1, hun]
    rfl

end Constr

/-! # Qubits, placeholder evaluation and QUBO generation
(src/src/wrapper.rs, src/src/expr.rs, src/src/expanded.rs,
src/annealers/src/model.rs) -/

/- `Qubit<Tq>` (src/src/wrapper.rs, lines 32-48): a user label or a
process-generated ancilla.  The derived `Ord` of the source compares the
variant first, so every `Qubit(_)` sorts before every `Ancilla(_)`. -/
inductive Qu where
  | Qubit : ℕ → Qu
  | Ancilla : ℕ → Qu
deriving DecidableEq

namespace Qu

def code : Qu → ℕ × ℕ
  | .Qubit n => (0, n)
  | .Ancilla n => (1, n)

theorem code_inj : Function.Injective code := by
  intro a b h
  cases a <;> cases b <;> simp [code] at h <;> simp [h]

instance : LinearOrder Qu :=
  LinearOrder.lift' (fun q => toLex (code q))
    (fun a b h => code_inj (by simpa using congrArg ofLex h))

end Qu

namespace StaticExpr

/- `StaticExpr::calculate` (src/src/expr.rs, lines 638-652): evaluate under
a placeholder resolver; the source asserts every resolved placeholder value
is non-negative, and `none` models that assertion firing.  `Add`/`Mul`
children are summed/multiplied as in the source's iterator `sum`/`product`. -/
mutual

def calcA (res : ℕ → ℚ) : StaticExpr → Option ℚ
  | .Placeholder p => if 0 ≤ res p then some (res p) else none
  | .Number n => some n
  | .Add v => calcAddL res v
  | .Mul v => calcMulL res v

def calcAddL (res : ℕ → ℚ) : List StaticExpr → Option ℚ
  | [] => some 0
  | x :: xs =>
    match calcA res x, calcAddL res xs with
    | some a, some b => some (a + b)
    | _, _ => none

def calcMulL (res : ℕ → ℚ) : List StaticExpr → Option ℚ
  | [] => some 1
  | x :: xs =>
    match calcA res x, calcMulL res xs with
    | some a, some b => some (a * b)
    | _, _ => none

end

theorem calcA_isSome_aux (res : ℕ → ℚ) (hnn : ∀ p, 0 ≤ res p) :
    ∀ (n : ℕ) (e : StaticExpr), size e ≤ n → (calcA res e).isSome := by
  intro n
  induction n with
  | zero => intro e he; have := size_pos e; omega
  | succ n ih =>
    intro e he
    match e with
    | .Placeholder p => rw [calcA]; simp [hnn p]
    | .Number q => rw [calcA]; rfl
    | .Add l =>
      rw [calcA]
      have hL : ∀ l' : List StaticExpr, sizeL l' ≤ sizeL l →
          (calcAddL res l').isSome := by
        intro l'
        induction l' with
        | nil => intro _; rfl
        | cons x xs ih2 =>
          intro hle
          rw [calcAddL]
          have hx : (calcA res x).isSome := by
            apply ih
            have : size x ≤ sizeL (x :: xs) := by simp only [sizeL]; omega
            simp only [size] at he
            simp only [sizeL] at hle ⊢
            omega
          have hxs : (calcAddL res xs).isSome := by
            apply ih2
            simp only [sizeL] at hle ⊢
            have := size_pos x
            omega
          rcases Option.isSome_iff_exists.1 hx with ⟨a, ha⟩
          rcases Option.isSome_iff_exists.1 hxs with ⟨b, hb⟩
          rw [ha, hb]
          rfl
      exact hL l le_rfl
    | .Mul l =>
      rw [calcA]
      have hL : ∀ l' : List StaticExpr, sizeL l' ≤ sizeL l →
          (calcMulL res l').isSome := by
        intro l'
        induction l' with
        | nil => intro _; rfl
        | cons x xs ih2 =>
          intro hle
          rw [calcMulL]
          have hx : (calcA res x).isSome := by
            apply ih
            simp only [size] at he
            simp only [sizeL] at hle
            omega
          have hxs : (calcMulL res xs).isSome := by
            apply ih2
            simp only [sizeL] at hle ⊢
            have := size_pos x
            omega
          rcases Option.isSome_iff_exists.1 hx with ⟨a, ha⟩
          rcases Option.isSome_iff_exists.1 hxs with ⟨b, hb⟩
          rw [ha, hb]
          rfl
      exact hL l le_rfl

theorem calcA_isSome {res : ℕ → ℚ} (hnn : ∀ p, 0 ≤ res p) (e : StaticExpr) :
    (calcA res e).isSome :=
  calcA_isSome_aux res hnn (size e) e le_rfl

end StaticExpr

/- `FixedSingleQuadricModel<Binary<R>>` (src/annealers/src/model.rs, lines
218-283).  The dense triangular vector indexed by `j*(j+1)/2 + i` for
`i ≤ j` is abstracted to a function on the canonically ordered pair `(i, j)`
with `i ≤ j`; `tri_index_inj` shows the source's `get_index_unchecked` is
injective on such pairs, so the abstraction is faithful. -/
structure FQModel where
  size : ℕ
  mat : ℕ × ℕ → ℚ

def tri_index (i j : ℕ) : ℕ := j * (j + 1) / 2 + i

theorem tri_succ (j : ℕ) : (j + 1) * (j + 2) / 2 = j * (j + 1) / 2 + (j + 1) := by
  have h2 : (j + 1) * (j + 2) = j * (j + 1) + 2 * (j + 1) := by ring
  rw [h2, Nat.add_mul_div_left _ _ (by norm_num : 0 < 2)]

theorem tri_index_inj {i j i' j' : ℕ} (h1 : i ≤ j) (h2 : i' ≤ j')
    (h : tri_index i j = tri_index i' j') : i = i' ∧ j = j' := by
  have key : ∀ a b : ℕ, a < b → a * (a + 1) / 2 + (a + 1) ≤ b * (b + 1) / 2 := by
    intro a b hab
    calc a * (a + 1) / 2 + (a + 1) = (a + 1) * (a + 2) / 2 := (tri_succ a).symm
    _ ≤ b * (b + 1) / 2 :=
      Nat.div_le_div_right (Nat.mul_le_mul (by omega) (by omega))
  rw [tri_index, tri_index] at h
  rcases Nat.lt_trichotomy j j' with hj | hj | hj
  · have := key j j' hj; omega
  · subst hj; omega
  · have := key j' j hj; omega

namespace FQModel

def new (size : ℕ) : FQModel := ⟨size, fun _ => 0⟩

/-- `FixedSingleQuadricModel::add_weight` (src/annealers/src/model.rs, lines
250-254) with `get_index`'s swap to `i ≤ j`: `matrix[idx] += w`. -/
def add_weight (M : FQModel) (i j : ℕ) (w : ℚ) : FQModel :=
  ⟨M.size, fun p => if p = (min i j, max i j) then M.mat p + w else M.mat p⟩

end FQModel

/- The qubit→index dictionary of `Expanded::generate_qubo` (src/src/
expanded.rs, lines 205-210): `HashMap` insertion keeps the last index for a
duplicated qubit, modelled by a left fold. -/
def qIndex (qubits : List Qu) (q : Qu) : Option ℕ :=
  (qubits.zip (List.range qubits.length)).foldl
    (fun acc qi => if qi.1 = q then some qi.2 else acc) none

/- The loop body of `Expanded::generate_qubo` (src/src/expanded.rs, lines
213-233): evaluate the term's coefficient, then dispatch on the sorted key:
empty → add to the constant, singleton → diagonal, pair → off-diagonal,
anything else → `panic!` (modelled by `none`); an index missing from the
dictionary also panics. -/
def qubo_step (qubits : List Qu) (res : ℕ → ℚ) (st : Option (ℚ × FQModel))
    (t : Finset Qu × StaticExpr) : Option (ℚ × FQModel) :=
  match st with
  | none => none
  | some (c, M) =>
    match StaticExpr.calcA res t.2 with
    | none => none
    | some val =>
      match t.1.sort (· ≤ ·) with
      | [] => some (c + val, M)
      | [q] =>
        match qIndex qubits q with
        | some index => some (c, M.add_weight index index val)
        | none => none
      | [q1, q2] =>
        match qIndex qubits q1, qIndex qubits q2 with
        | some i1, some i2 => some (c, M.add_weight i1 i2 val)
        | _, _ => none
      | _ => none

/-- `Expanded::generate_qubo` (src/src/expanded.rs, lines 197-235): fold the
loop body over the term map, starting from constant `0` and the zero model
of size `qubits.len()`. -/
def generate_qubo (terms : List (Finset Qu × StaticExpr)) (qubits : List Qu)
    (res : ℕ → ℚ) : Option (ℚ × FQModel) :=
  terms.foldl (qubo_step qubits res) (some (0, FQModel.new qubits.length))

/-! ## Behaviour of `generate_qubo` (claim C5) -/

/- Specification of the contributions of one term under the dispatch. -/
def term_val (res : ℕ → ℚ) (t : Finset Qu × StaticExpr) : ℚ :=
  (StaticExpr.calcA res t.2).getD 0

def term_c (res : ℕ → ℚ) (t : Finset Qu × StaticExpr) : ℚ :=
  if t.1 = ∅ then term_val res t else 0

def term_entry (qubits : List Qu) (res : ℕ → ℚ) (t : Finset Qu × StaticExpr)
    (p : ℕ × ℕ) : ℚ :=
  match t.1.sort (· ≤ ·) with
  | [q] =>
    match qIndex qubits q with
    | some i => if p = (i, i) then term_val res t else 0
    | none => 0
  | [q1, q2] =>
    match qIndex qubits q1, qIndex qubits q2 with
    | some i1, some i2 =>
      if p = (min i1 i2, max i1 i2) then term_val res t else 0
    | _, _ => 0
  | _ => 0

theorem foldl_qubo_none (qubits : List Qu) (res : ℕ → ℚ) :
    ∀ terms : List (Finset Qu × StaticExpr),
      terms.foldl (qubo_step qubits res) none = none := by
  intro terms
  induction terms with
  | nil => rfl
  | cons t rest ih => rw [List.foldl_cons]; exact ih

theorem qubo_step_bad {qubits : List Qu} {res : ℕ → ℚ}
    {t : Finset Qu × StaticExpr}
    (hbad : 2 < t.1.card ∨ ∃ q ∈ t.1, qIndex qubits q = none)
    (st : Option (ℚ × FQModel)) : qubo_step qubits res st t = none := by
  cases st with
  | none => rfl
  | some cm =>
    rcases cm with ⟨c, M⟩
    rw [qubo_step]
    cases hval : StaticExpr.calcA res t.2 with
    | none => rfl
    | some val =>
      have hlen : (t.1.sort (· ≤ ·)).length = t.1.card := Finset.length_sort _
      match hs : t.1.sort (· ≤ ·) with
      | [] =>
        exfalso
        rw [hs] at hlen
        simp at hlen
        have hemp : t.1 = ∅ := Finset.card_eq_zero.1 (by omega)
        rcases hbad with hbad | ⟨q, hq, _⟩
        · omega
        · rw [hemp] at hq; exact absurd hq (Finset.not_mem_empty q)
      | [q] =>
        rw [hs] at hlen
        simp at hlen
        rcases hbad with hbad | ⟨q', hq', hq'i⟩
        · omega
        · have hmem : q' ∈ t.1.sort (· ≤ ·) := (Finset.mem_sort _).2 hq'
          rw [hs] at hmem
          rw [List.mem_singleton.1 hmem] at hq'i
          simp [hq'i]
      | [q1, q2] =>
        rw [hs] at hlen
        simp at hlen
        rcases hbad with hbad | ⟨q', hq', hq'i⟩
        · omega
        · have hmem : q' ∈ t.1.sort (· ≤ ·) := (Finset.mem_sort _).2 hq'
          rw [hs] at hmem
          rcases List.mem_cons.1 hmem with h1 | h1
          · subst h1
            simp [hq'i]
          · rw [List.mem_singleton.1 h1] at hq'i
            simp [hq'i]
      | q1 :: q2 :: q3 :: rest => rfl

theorem generate_qubo_fold_good {qubits : List Qu} {res : ℕ → ℚ}
    (hnn : ∀ p, 0 ≤ res p) :
    ∀ (terms : List (Finset Qu × StaticExpr)) (c0 : ℚ) (M0 : FQModel),
    (∀ t ∈ terms, t.1.card ≤ 2 ∧ ∀ q ∈ t.1, qIndex qubits q ≠ none) →
    terms.foldl (qubo_step qubits res) (some (c0, M0)) =
      some (c0 + (terms.map (term_c res)).sum,
        ⟨M0.size, fun p => M0.mat p +
          (terms.map (fun t => term_entry qubits res t p)).sum⟩) := by
  intro terms
  induction terms with
  | nil =>
    intro c0 M0 _
    rcases M0 with ⟨sz, mat⟩
    simp
  | cons t rest ih =>
    intro c0 M0 hgood
    rw [List.foldl_cons]
    have hts := hgood t (by simp)
    rcases Option.isSome_iff_exists.1 (StaticExpr.calcA_isSome hnn t.2)
      with ⟨val, hval⟩
    have hvv : term_val res t = val := by rw [term_val, hval]; rfl
    have hlen : (t.1.sort (· ≤ ·)).length = t.1.card := Finset.length_sort _
    have hrest : ∀ t' ∈ rest, t'.1.card ≤ 2 ∧
        ∀ q ∈ t'.1, qIndex qubits q ≠ none :=
      fun t' ht' => hgood t' (by simp [ht'])
    match hs : t.1.sort (· ≤ ·) with
    | [] =>
      have hemp : t.1 = ∅ := by
        rw [hs] at hlen
        simp at hlen
        exact Finset.card_eq_zero.1 (by omega)
      have hstep : qubo_step qubits res (some (c0, M0)) t =
          some (c0 + val, M0) := by
        simp only [qubo_step, hval, hs]
      rw [hstep, ih (c0 + val) M0 hrest]
      have hc : term_c res t = val := by rw [term_c, if_pos hemp, hvv]
      have he : ∀ p, term_entry qubits res t p = 0 := by
        intro p
        simp only [term_entry, hs]
      have hA : c0 + val + (rest.map (term_c res)).sum =
          c0 + ((t :: rest).map (term_c res)).sum := by
        rw [List.map_cons, List.sum_cons, hc]
        ring
      have hG : (fun p => M0.mat p +
          (rest.map (fun t => term_entry qubits res t p)).sum) =
          (fun p => M0.mat p +
            ((t :: rest).map (fun t => term_entry qubits res t p)).sum) := by
        funext p
        rw [List.map_cons, List.sum_cons, he p]
        ring
      rw [hA, hG]
    | [q] =>
      have hq : q ∈ t.1 := by
        have hmem : q ∈ t.1.sort (· ≤ ·) := by rw [hs]; simp
        exact (Finset.mem_sort _).1 hmem
      rcases Option.ne_none_iff_exists.1 (hts.2 q hq) with ⟨i, hi⟩
      have hstep : qubo_step qubits res (some (c0, M0)) t =
          some (c0, M0.add_weight i i val) := by
        simp only [qubo_step, hval, hs, ← hi]
      rw [hstep, ih c0 (M0.add_weight i i val) hrest]
      have hne : t.1 ≠ ∅ := by
        intro hemp
        rw [hemp] at hq
        exact Finset.not_mem_empty q hq
      have hc : term_c res t = 0 := by rw [term_c, if_neg hne]
      have he : ∀ p, term_entry qubits res t p =
          if p = (i, i) then val else 0 := by
        intro p
        simp only [term_entry, hs, ← hi, hvv]
      have hA : c0 + (rest.map (term_c res)).sum =
          c0 + ((t :: rest).map (term_c res)).sum := by
        rw [List.map_cons, List.sum_cons, hc]
        ring
      have hG : (fun p => (M0.add_weight i i val).mat p +
          (rest.map (fun t => term_entry qubits res t p)).sum) =
          (fun p => M0.mat p +
            ((t :: rest).map (fun t => term_entry qubits res t p)).sum) := by
        funext p
        rw [List.map_cons, List.sum_cons, he p]
        show (if p = (min i i, max i i) then M0.mat p + val else M0.mat p) + _ =
          M0.mat p + _
        simp only [Nat.min_self, Nat.max_self]
        by_cases hp : p = (i, i)
        · rw [if_pos hp, if_pos hp]
          ring
        · rw [if_neg hp, if_neg hp]
          ring
      rw [hA, hG]
      rfl
    | [q1, q2] =>
      have hq1 : q1 ∈ t.1 := by
        have hmem : q1 ∈ t.1.sort (· ≤ ·) := by rw [hs]; simp
        exact (Finset.mem_sort _).1 hmem
      have hq2 : q2 ∈ t.1 := by
        have hmem : q2 ∈ t.1.sort (· ≤ ·) := by rw [hs]; simp
        exact (Finset.mem_sort _).1 hmem
      rcases Option.ne_none_iff_exists.1 (hts.2 q1 hq1) with ⟨i1, hi1⟩
      rcases Option.ne_none_iff_exists.1 (hts.2 q2 hq2) with ⟨i2, hi2⟩
      have hstep : qubo_step qubits res (some (c0, M0)) t =
          some (c0, M0.add_weight i1 i2 val) := by
        simp only [qubo_step, hval, hs, ← hi1, ← hi2]
      rw [hstep, ih c0 (M0.add_weight i1 i2 val) hrest]
      have hne : t.1 ≠ ∅ := by
        intro hemp
        rw [hemp] at hq1
        exact Finset.not_mem_empty q1 hq1
      have hc : term_c res t = 0 := by rw [term_c, if_neg hne]
      have he : ∀ p, term_entry qubits res t p =
          if p = (min i1 i2, max i1 i2) then val else 0 := by
        intro p
        simp only [term_entry, hs, ← hi1, ← hi2, hvv]
      have hA : c0 + (rest.map (term_c res)).sum =
          c0 + ((t :: rest).map (term_c res)).sum := by
        rw [List.map_cons, List.sum_cons, hc]
        ring
      have hG : (fun p => (M0.add_weight i1 i2 val).mat p +
          (rest.map (fun t => term_entry qubits res t p)).sum) =
          (fun p => M0.mat p +
            ((t :: rest).map (fun t => term_entry qubits res t p)).sum) := by
        funext p
        rw [List.map_cons, List.sum_cons, he p]
        show (if p = (min i1 i2, max i1 i2) then M0.mat p + val else M0.mat p) + _ =
          M0.mat p + _
        by_cases hp : p = (min i1 i2, max i1 i2)
        · rw [if_pos hp, if_pos hp]
          ring
        · rw [if_neg hp, if_neg hp]
          ring
      rw [hA, hG]
      rfl
    | q1 :: q2 :: q3 :: rest2 =>
      exfalso
      rw [hs] at hlen
      have h1 := hts.1
      simp at hlen
      omega

/-- C5: under the interface contract that the resolver returns non-negative
values, `generate_qubo` panics (returns `none`) exactly when some key has
more than two qubits or some key contains a qubit absent from the ordering;
when every key has at most two qubits all of which are indexed, the panic
branches are unreachable and the result accumulates each evaluated
coefficient into the constant (empty key), the diagonal (singleton key), or
the canonically ordered off-diagonal entry (pair key). -/
theorem C5_generate_qubo (terms : List (Finset Qu × StaticExpr))
    (qubits : List Qu) (res : ℕ → ℚ) (hnn : ∀ p, 0 ≤ res p) :
    (generate_qubo terms qubits res = none ↔
      ∃ t ∈ terms, 2 < t.1.card ∨ ∃ q ∈ t.1, qIndex qubits q = none) ∧
    ((∀ t ∈ terms, t.1.card ≤ 2 ∧ ∀ q ∈ t.1, qIndex qubits q ≠ none) →
      generate_qubo terms qubits res =
        some ((terms.map (term_c res)).sum,
          ⟨qubits.length, fun p =>
            (terms.map (fun t => term_entry qubits res t p)).sum⟩)) := by
  have hgoodcase : (∀ t ∈ terms, t.1.card ≤ 2 ∧
      ∀ q ∈ t.1, qIndex qubits q ≠ none) →
      generate_qubo terms qubits res =
        some ((terms.map (term_c res)).sum,
          ⟨qubits.length, fun p =>
            (terms.map (fun t => term_entry qubits res t p)).sum⟩) := by
    intro hgood
    rw [generate_qubo,
      generate_qubo_fold_good hnn terms 0 (FQModel.new qubits.length) hgood]
    have hA : (0 : ℚ) + (terms.map (term_c res)).sum =
        (terms.map (term_c res)).sum := by ring
    have hG : (fun p => (FQModel.new qubits.length).mat p +
        (terms.map (fun t => term_entry qubits res t p)).sum) =
        (fun p => (terms.map (fun t => term_entry qubits res t p)).sum) := by
      funext p
      show (0 : ℚ) + _ = _
      ring
    rw [hA, hG]
    rfl
  constructor
  · constructor
    · intro hnone
      by_contra hc
      push_neg at hc
      have hgood : ∀ t ∈ terms, t.1.card ≤ 2 ∧
          ∀ q ∈ t.1, qIndex qubits q ≠ none := by
        intro t ht
        rcases hc t ht with ⟨h1, h2⟩
        exact ⟨by omega, fun q hq => h2 q hq⟩
      rw [hgoodcase hgood] at hnone
      cases hnone
    · intro hbad
      rcases hbad with ⟨t, ht, hbad⟩
      rcases List.append_of_mem ht with ⟨l1, l2, rfl⟩
      rw [generate_qubo, List.foldl_append, List.foldl_cons,
        qubo_step_bad hbad, foldl_qubo_none]
  · exact hgoodcase

/-- C5 (witness): a two-term Expanded over one qubit, evaluated through the
main theorem: the empty key feeds the constant and the singleton key feeds
the diagonal entry. -/
theorem C5_witness :
    generate_qubo [(∅, .Number 3), ({Qu.Qubit 0}, .Number 2)] [Qu.Qubit 0]
      (fun _ => 0) =
      some (3, ⟨1, fun p => if p = (0, 0) then 2 else 0⟩) := by
  have hq0 : qIndex [Qu.Qubit 0] (Qu.Qubit 0) = some 0 := rfl
  have h := (C5_generate_qubo [(∅, .Number 3), ({Qu.Qubit 0}, .Number 2)]
    [Qu.Qubit 0] (fun _ => 0) (fun p => le_refl 0)).2 (by
      intro t ht
      rcases List.mem_cons.1 ht with rfl | ht2
      · refine ⟨by simp, ?_⟩
        intro q hq
        exact absurd hq (Finset.not_mem_empty q)
      · rcases List.mem_cons.1 ht2 with rfl | ht3
        · refine ⟨by simp, ?_⟩
          intro q hq
          rw [Finset.mem_singleton.1 hq, hq0]
          exact fun hcontra => Option.noConfusion hcontra
        · cases ht3)
  rw [h]
  have hs2 : ({Qu.Qubit 0} : Finset Qu).sort (· ≤ ·) = [Qu.Qubit 0] := by
    simp
  have hA : ([((∅ : Finset Qu), StaticExpr.Number 3),
      ({Qu.Qubit 0}, StaticExpr.Number 2)].map (term_c (fun _ => 0))).sum
      = (3 : ℚ) := by
    rw [List.map_cons, List.map_cons, List.map_nil, List.sum_cons,
      List.sum_cons, List.sum_nil]
    rw [term_c, term_c, if_pos rfl, if_neg (by simp)]
    rw [term_val]
    norm_num [StaticExpr.calcA]
  have hv : term_val (fun _ => 0) ({Qu.Qubit 0}, StaticExpr.Number 2)
      = (2 : ℚ) := by
    rw [term_val]
    norm_num [StaticExpr.calcA]
  have hG : (fun p => ([((∅ : Finset Qu), StaticExpr.Number 3),
      ({Qu.Qubit 0}, StaticExpr.Number 2)].map
        (fun t => term_entry [Qu.Qubit 0] (fun _ => 0) t p)).sum) =
      (fun p : ℕ × ℕ => if p = (0, 0) then (2 : ℚ) else 0) := by
    funext p
    rw [List.map_cons, List.map_cons, List.map_nil, List.sum_cons,
      List.sum_cons, List.sum_nil]
    simp only [term_entry, Finset.sort_empty, hs2, hq0, hv]
    by_cases hp : p = (0, 0)
    · simp [hp]
    · simp [hp]
  rw [hA, hG]
  rfl

/-! Simulated annealing energy bookkeeping: embedding of
calculate_flip_cost and the energy_diffs initialization and update of
simulated_annealing (src/classical_solver/src/algo.rs), over the
quadratic model of src/annealers/src/model.rs with Binary nodes
(src/annealers/src/node.rs) and sorted-pair node sets
(src/annealers/src/set.rs). -/

namespace SA

/-- Binary::get_value (src/annealers/src/node.rs, lines 82-87): true
maps to 1, false to 0. -/
def val (b : Bool) : ℚ := if b then 1 else 0

/-- Member list of a [usize; 2] NodeSet (src/annealers/src/set.rs,
lines 131-138): one index for a diagonal pair, both indices otherwise. -/
def pIter (p : ℕ × ℕ) : List ℕ := if p.1 = p.2 then [p.1] else [p.1, p.2]

/-- The product set of a FixedSingleQuadricModel of the given size: the
Prods iterator (src/annealers/src/model.rs, lines 305-331) emits, for
size at least 2, exactly the sorted pairs (i, j) with i at most j and
j below size, each once (the emission order is settled in claim C9). -/
def prodsF (n : ℕ) : Finset (ℕ × ℕ) :=
  (Finset.range n ×ˢ Finset.range n).filter (fun p => p.1 ≤ p.2)

/-- SingleNode::calculate_prod over the member values of a product
(src/annealers/src/node.rs, lines 14-17). -/
def prodVal (s : ℕ → Bool) (p : ℕ × ℕ) : ℚ :=
  (pIter p).foldl (fun m i => m * val (s i)) 1

/-- Energy of a state under the quadratic model: the weighted sum over
all products; energy_diffs must track flips of this quantity. The
weight function is queried at sorted index pairs only, matching the
triangular matrix of FixedSingleQuadricModel. -/
def energy (w : ℕ → ℕ → ℚ) (n : ℕ) (s : ℕ → Bool) : ℚ :=
  Finset.sum (prodsF n) (fun p => w p.1 p.2 * prodVal s p)

/-- State with variable i flipped (BinaryRepr::flip_unchecked, viewed
through get_unchecked). -/
def flipS (i : ℕ) (s : ℕ → Bool) : ℕ → Bool :=
  fun j => if j = i then !(s j) else s j

/-- True energy difference of flipping k in state s. -/
def deltaE (w : ℕ → ℕ → ℚ) (n : ℕ) (s : ℕ → Bool) (k : ℕ) : ℚ :=
  energy w n (flipS k s) - energy w n s

/-- calculate_flip_cost (src/classical_solver/src/algo.rs, lines 8-28):
fold the node values of the product members other than index, then sign
by the current value at index. -/
def flip_cost (s : ℕ → Bool) (p : ℕ × ℕ) (index : ℕ) : ℚ :=
  let term := (pIter p).foldl
    (fun m i => if i = index then m else m * val (s i)) 1
  let d := val false - val true
  if s index then d * term else -d * term

/-- Initialization of energy_diffs (src/classical_solver/src/algo.rs,
lines 45-50): entry k accumulates flip_cost times weight over every
product that contains k. -/
def init_diffs (w : ℕ → ℕ → ℚ) (n : ℕ) (s : ℕ → Bool) (k : ℕ) : ℚ :=
  Finset.sum (prodsF n) (fun p =>
    if k ∈ pIter p then flip_cost s p k * w p.1 p.2 else 0)

/-- Update of energy_diffs after an accepted flip of i
(src/classical_solver/src/algo.rs, lines 62-80), read off the post-flip
state s: entry i is negated; every other entry j below n gains
dd times the weight of the sorted pair of i and j when the new value at
i differs from the value at j, and loses it otherwise, where
dd is the square of the node value gap (the singleton neighbor [i] is
skipped by the len check and indices outside 0..n are never visited). -/
def flip_update (w : ℕ → ℕ → ℚ) (n : ℕ) (s : ℕ → Bool) (i : ℕ)
    (ed : ℕ → ℚ) : ℕ → ℚ :=
  fun j =>
    if j = i then -ed i
    else if j < n then
      (if s i != s j then
        ed j + ((val true - val false) * (val true - val false))
          * w (min i j) (max i j)
      else
        ed j - ((val true - val false) * (val true - val false))
          * w (min i j) (max i j))
    else ed j

/-- Closed form of prodVal: a single node value on the diagonal, the
product of the two member values otherwise. -/
theorem prodVal_eq (s : ℕ → Bool) (p : ℕ × ℕ) :
    prodVal s p = if p.1 = p.2 then val (s p.1)
      else val (s p.1) * val (s p.2) := by
  rw [prodVal, pIter]
  by_cases h : p.1 = p.2
  · rw [if_pos h, if_pos h]
    simp [List.foldl_cons, List.foldl_nil, one_mul]
  · rw [if_neg h, if_neg h]
    simp [List.foldl_cons, List.foldl_nil, one_mul]

/-- Per-product form of the initialization sum: the contribution of one
product to entry k is the weighted change of its value under a flip
of k. -/
theorem init_term (w : ℕ → ℕ → ℚ) (s : ℕ → Bool) (k : ℕ) (p : ℕ × ℕ) :
    (if k ∈ pIter p then flip_cost s p k * w p.1 p.2 else 0) =
      w p.1 p.2 * (prodVal (flipS k s) p - prodVal s p) := by
  rcases p with ⟨a, b⟩
  by_cases hab : a = b
  · subst hab
    by_cases hk : k = a
    · subst hk
      have hm : k ∈ pIter (k, k) := by simp [pIter]
      rw [if_pos hm]
      cases hs : s k <;>
        simp [flip_cost, pIter, prodVal_eq, flipS, val, hs,
          List.foldl_cons, List.foldl_nil]
    · have hm : k ∉ pIter (a, a) := by simp [pIter, hk]
      rw [if_neg hm]
      have hak : ¬ a = k := fun h => hk h.symm
      simp [prodVal_eq, flipS, hak]
  · by_cases hka : k = a
    · have hm : k ∈ pIter (a, b) := by simp [pIter, hab, hka]
      rw [if_pos hm]
      subst hka
      have hbk : ¬ b = k := fun h => hab h.symm
      cases hs : s k <;> cases hs2 : s b <;>
        simp [flip_cost, pIter, hab, prodVal_eq, flipS, val, hs, hs2,
          hbk, List.foldl_cons, List.foldl_nil]
    · by_cases hkb : k = b
      · have hm : k ∈ pIter (a, b) := by simp [pIter, hab, hkb]
        rw [if_pos hm]
        subst hkb
        have hak : ¬ a = k := fun h => hka h.symm
        cases hs : s a <;> cases hs2 : s k <;>
          simp [flip_cost, pIter, hab, prodVal_eq, flipS, val, hs, hs2,
            hak, List.foldl_cons, List.foldl_nil]
      · have hm : k ∉ pIter (a, b) := by simp [pIter, hab, hka, hkb]
        rw [if_neg hm]
        have hak : ¬ a = k := fun h => hka h.symm
        have hbk : ¬ b = k := fun h => hkb h.symm
        simp [prodVal_eq, flipS, hak, hbk]

/-- The initialization loop computes the true energy differences. -/
theorem init_diffs_correct (w : ℕ → ℕ → ℚ) (n : ℕ) (s : ℕ → Bool)
    (k : ℕ) : init_diffs w n s k = deltaE w n s k := by
  rw [init_diffs, deltaE, energy, energy, ← Finset.sum_sub_distrib]
  apply Finset.sum_congr rfl
  intro p hp
  rw [init_term]
  ring

/-- Flipping the same variable twice restores the state. -/
theorem flipS_flipS (i : ℕ) (s : ℕ → Bool) : flipS i (flipS i s) = s := by
  funext j
  simp only [flipS]
  by_cases h : j = i <;> simp [h]

/-- The energy difference of re-flipping the variable just flipped is
the negation of the previous difference. -/
theorem deltaE_flip_self (w : ℕ → ℕ → ℚ) (n : ℕ) (s : ℕ → Bool)
    (i : ℕ) : deltaE w n (flipS i s) i = -deltaE w n s i := by
  rw [deltaE, deltaE, flipS_flipS]
  ring

/-- Flipping a variable outside the model leaves the energy unchanged. -/
theorem deltaE_out (w : ℕ → ℕ → ℚ) (n : ℕ) (s : ℕ → Bool) {j : ℕ}
    (hj : ¬ j < n) : deltaE w n s j = 0 := by
  rw [deltaE, energy, energy, sub_eq_zero]
  apply Finset.sum_congr rfl
  intro p hp
  simp only [prodsF, Finset.mem_filter, Finset.mem_product,
    Finset.mem_range] at hp
  obtain ⟨⟨h1, h2⟩, hle⟩ := hp
  have h1j : ¬ p.1 = j := fun h => hj (h ▸ h1)
  have h2j : ¬ p.2 = j := fun h => hj (h ▸ h2)
  rw [prodVal_eq, prodVal_eq]
  simp [flipS, h1j, h2j]

/-- Cross effect of one flip on the energy difference of another
variable: flipping i shifts the true difference for j by the weight of
the pair of i and j, with positive sign exactly when the pre-flip
values of i and j agree. Only the product containing both variables
contributes. -/
theorem deltaE_cross (w : ℕ → ℕ → ℚ) (n : ℕ) (s : ℕ → Bool) {i j : ℕ}
    (hij : ¬ i = j) (hi : i < n) (hj : j < n) :
    deltaE w n (flipS i s) j - deltaE w n s j =
      (if s i = s j then w (min i j) (max i j)
       else -w (min i j) (max i j)) := by
  have hE : deltaE w n (flipS i s) j - deltaE w n s j =
      Finset.sum (prodsF n) (fun p => w p.1 p.2 *
        (prodVal (flipS j (flipS i s)) p - prodVal (flipS i s) p -
          prodVal (flipS j s) p + prodVal s p)) := by
    simp only [deltaE, energy]
    simp only [mul_sub, mul_add, Finset.sum_sub_distrib,
      Finset.sum_add_distrib]
    ring
  have hmem : (min i j, max i j) ∈ prodsF n := by
    simp only [prodsF, Finset.mem_filter, Finset.mem_product,
      Finset.mem_range]
    exact ⟨⟨lt_of_le_of_lt (min_le_left i j) hi, max_lt hi hj⟩,
      min_le_max⟩
  have hzero : ∀ p ∈ prodsF n, p ≠ (min i j, max i j) →
      w p.1 p.2 * (prodVal (flipS j (flipS i s)) p -
        prodVal (flipS i s) p - prodVal (flipS j s) p + prodVal s p)
        = 0 := by
    rintro ⟨a, b⟩ hp hpne
    simp only [prodsF, Finset.mem_filter, Finset.mem_product,
      Finset.mem_range] at hp
    obtain ⟨⟨ha, hb⟩, hab⟩ := hp
    by_cases hjin : j = a ∨ j = b
    · by_cases hiin : i = a ∨ i = b
      · exfalso
        apply hpne
        rcases hiin with hia | hib
        · rcases hjin with hja | hjb
          · exact absurd (hia.trans hja.symm) hij
          · rw [hia, hjb, min_eq_left hab, max_eq_right hab]
        · rcases hjin with hja | hjb
          · rw [hib, hja, min_eq_right hab, max_eq_left hab]
          · exact absurd (hib.trans hjb.symm) hij
      · rw [not_or] at hiin
        obtain ⟨hia, hib⟩ := hiin
        have hai : ¬ a = i := fun h => hia h.symm
        have hbi : ¬ b = i := fun h => hib h.symm
        simp only [prodVal_eq, flipS, if_neg hai, if_neg hbi]
        ring
    · rw [not_or] at hjin
      obtain ⟨hja, hjb⟩ := hjin
      have haj : ¬ a = j := fun h => hja h.symm
      have hbj : ¬ b = j := fun h => hjb h.symm
      simp only [prodVal_eq, flipS, if_neg haj, if_neg hbj]
      ring
  rw [hE, Finset.sum_eq_single_of_mem (min i j, max i j) hmem hzero]
  have hji2 : ¬ j = i := fun h => hij h.symm
  rcases le_total i j with hle | hle
  · rw [min_eq_left hle, max_eq_right hle]
    simp only [prodVal_eq, flipS, if_neg hij, if_neg hji2]
    cases hsi : s i <;> cases hsj : s j <;>
      simp [val, hsi, hsj, hij]
  · rw [min_eq_right hle, max_eq_left hle]
    simp only [prodVal_eq, flipS, if_neg hij, if_neg hji2]
    cases hsi : s i <;> cases hsj : s j <;>
      simp [val, hsi, hsj, hji2]

end SA

/-- C2: incremental energy-delta consistency of the SA engine. For a
quadratic model of size n at least 2 (so that the product iterator is
faithful), the initialization pass gives every entry k of energy_diffs
the true energy difference of flipping k; and after an accepted flip of
a variable i below n, if the vector ed was correct for the pre-flip
state s, the updated vector flip_update (computed from the post-flip
state flipS i s, as in the source) is correct for the post-flip state
at every index j. -/
theorem C2_energy_diffs (w : ℕ → ℕ → ℚ) (n : ℕ) (hn : 2 ≤ n) :
    (∀ (s : ℕ → Bool) (k : ℕ),
      SA.init_diffs w n s k = SA.deltaE w n s k) ∧
    (∀ (s : ℕ → Bool) (i : ℕ) (ed : ℕ → ℚ), i < n →
      (∀ j, ed j = SA.deltaE w n s j) →
      ∀ j, SA.flip_update w n (SA.flipS i s) i ed j =
        SA.deltaE w n (SA.flipS i s) j) := by
  constructor
  · intro s k
    exact SA.init_diffs_correct w n s k
  · intro s i ed hi hed j
    simp only [SA.flip_update]
    by_cases hji : j = i
    · rw [if_pos hji, hed i, hji, SA.deltaE_flip_self]
    · rw [if_neg hji]
      by_cases hjn : j < n
      · rw [if_pos hjn, hed j]
        have hii : SA.flipS i s i = !(s i) := by simp [SA.flipS]
        have hij2 : SA.flipS i s j = s j := by simp [SA.flipS, hji]
        have hij3 : ¬ i = j := fun h => hji h.symm
        have hcross := SA.deltaE_cross w n s hij3 hi hjn
        rw [hii, hij2]
        have hdd : (SA.val true - SA.val false) *
            (SA.val true - SA.val false) = 1 := by
          norm_num [SA.val]
        rw [hdd, one_mul, eq_add_of_sub_eq hcross]
        cases hsi : s i <;> cases hsj : s j <;>
          simp [hsi, hsj] <;> ring
      · rw [if_neg hjn, hed j, SA.deltaE_out w n s hjn,
          SA.deltaE_out w n (SA.flipS i s) hjn]

/-- Witness for C2 at n = 2: constant weights 1, the all-false state,
and a flip of variable 0; both invariant parts instantiated and the
hypotheses discharged concretely. -/
theorem C2_witness :
    (2 ≤ 2 ∧ (0 : ℕ) < 2) ∧
    SA.init_diffs (fun _ _ => 1) 2 (fun _ => false) 0 =
      SA.deltaE (fun _ _ => 1) 2 (fun _ => false) 0 ∧
    SA.flip_update (fun _ _ => 1) 2 (SA.flipS 0 (fun _ => false)) 0
        (fun k => SA.deltaE (fun _ _ => 1) 2 (fun _ => false) k) 1 =
      SA.deltaE (fun _ _ => 1) 2 (SA.flipS 0 (fun _ => false)) 1 :=
  ⟨⟨le_refl 2, by decide⟩,
    (C2_energy_diffs (fun _ _ => 1) 2 (le_refl 2)).1 (fun _ => false) 0,
    (C2_energy_diffs (fun _ _ => 1) 2 (le_refl 2)).2 (fun _ => false) 0
      (fun k => SA.deltaE (fun _ _ => 1) 2 (fun _ => false) k)
      (by decide) (fun j => rfl) 1⟩

/-! Prods iterator (src/annealers/src/model.rs, lines 286-331), over the
[usize; 2] NodeSet (src/annealers/src/set.rs, lines 118-153). The
iterator state is the indices vector; Prods::new(2, size) starts from
the vector [0]. NodeSet::from_vec sorts its input and maps [i] to the
diagonal pair (i, i). -/

namespace Prods

/-- Prods::next as a state transformer on the indices vector, returning
the emitted pair and the successor state. States of other shapes never
arise from the initial state [0]; the source would panic on them
(unwrap of a failed from_vec, or an out-of-bounds index), modeled as
none. -/
def prodsNext (size : ℕ) : List ℕ → Option ((ℕ × ℕ) × List ℕ)
  | [i] =>
    if i < size then some ((i, i), [i + 1])
    else some ((0, 1), [0, 2])
  | [i, j] =>
    if j < size then some ((min i j, max i j), [i, j + 1])
    else if i + 2 < size then some ((i + 1, i + 2), [i + 1, i + 3])
    else none
  | _ => none

/-- Driving loop: collect the iterator from a given state, with the
branch structure of prodsNext inlined (prodsRun_eq_next below ties the
two together on the reachable state shapes). -/
def prodsRun (size : ℕ) : List ℕ → List (ℕ × ℕ)
  | [i] =>
    if _h : i < size then (i, i) :: prodsRun size [i + 1]
    else (0, 1) :: prodsRun size [0, 2]
  | [i, j] =>
    if _h : j < size then (i, j) :: prodsRun size [i, j + 1]
    else if _h2 : i + 2 < size then
      (i + 1, i + 2) :: prodsRun size [i + 1, i + 3]
    else []
  | _ => []
termination_by l =>
  ((match l with | [_] => 1 | _ => 0),
   (match l with | i :: _ => size + 1 - i | _ => 0),
   (match l with | [_, j] => size + 2 - j | _ => 0))

/-- Prods::new(2, size).collect(): run from the initial state [0]. -/
def prodsCollect (size : ℕ) : List (ℕ × ℕ) := prodsRun size [0]

/-- Diagonal pairs (i, i) for i below n, in increasing order. -/
def diagL (n : ℕ) : List (ℕ × ℕ) := (List.range n).map fun i => (i, i)

/-- Row i of the off-diagonal pairs: (i, j) for j from i + 1 to n - 1. -/
def rowL (n i : ℕ) : List (ℕ × ℕ) :=
  (List.range' (i + 1) (n - (i + 1))).map fun j => (i, j)

/-- All off-diagonal pairs (i, j) with i < j < n in lexicographic
order. -/
def lexL (n : ℕ) : List (ℕ × ℕ) := (List.range n).flatMap fun i => rowL n i

/-- Tail rows of the off-diagonal pairs, rows r to n - 2. -/
def tailL (n r : ℕ) : List (ℕ × ℕ) :=
  (List.range' r (n - 1 - r)).flatMap fun a => rowL n a

/-- Well-formed iterator states: a singleton, or a strictly sorted
pair; exactly the shapes reachable from the initial state [0]. -/
def stateOk : List ℕ → Prop
  | [_] => True
  | [i, j] => i < j
  | _ => False

/-- On well-formed states, the collecting loop prodsRun agrees with one
step of prodsNext followed by itself: the loop is the unfolding of the
iterator. -/
theorem prodsRun_eq_next (size : ℕ) (l : List ℕ) (hl : stateOk l) :
    prodsRun size l =
      (match prodsNext size l with
       | none => []
       | some (p, l2) => p :: prodsRun size l2) := by
  match l with
  | [i] =>
    by_cases h : i < size
    · rw [prodsRun, dif_pos h]
      simp only [prodsNext, if_pos h]
    · rw [prodsRun, dif_neg h]
      simp only [prodsNext, if_neg h]
  | [i, j] =>
    have hij : i < j := hl
    by_cases h : j < size
    · rw [prodsRun, dif_pos h]
      simp only [prodsNext, if_pos h, min_eq_left (le_of_lt hij),
        max_eq_right (le_of_lt hij)]
    · by_cases h2 : i + 2 < size
      · rw [prodsRun, dif_neg h, dif_pos h2]
        simp only [prodsNext, if_neg h, if_pos h2]
      · rw [prodsRun, dif_neg h, dif_neg h2]
        simp only [prodsNext, if_neg h, if_neg h2]

/-- Diagonal phase: from a singleton state [i] with i at most size, the
run emits the diagonal pairs from i upward, then the pair (0, 1) from
the length-one branch, and continues from the state [0, 2]. -/
theorem run_diag (size : ℕ) : ∀ (k i : ℕ), i + k = size →
    prodsRun size [i] =
      ((List.range' i k).map fun m => (m, m)) ++
        (0, 1) :: prodsRun size [0, 2] := by
  intro k
  induction k with
  | zero =>
    intro i hi
    have h : ¬ i < size := by omega
    rw [prodsRun, dif_neg h]
    simp [List.range']
  | succ k ih =>
    intro i hi
    have h : i < size := by omega
    rw [prodsRun, dif_pos h, ih (i + 1) (by omega), List.range'_succ]
    simp

/-- Row phase: from a pair state [i, j] with j at most size, the run
emits the pairs (i, m) for m from j to size - 1 and continues from the
end-of-row state [i, size]. -/
theorem run_row (size i : ℕ) : ∀ (k j : ℕ), j + k = size →
    prodsRun size [i, j] =
      ((List.range' j k).map fun m => (i, m)) ++
        prodsRun size [i, size] := by
  intro k
  induction k with
  | zero =>
    intro j hj
    have h : j = size := by omega
    subst h
    simp [List.range']
  | succ k ih =>
    intro j hj
    have h : j < size := by omega
    rw [prodsRun, dif_pos h, ih (j + 1) (by omega), List.range'_succ]
    simp

/-- Unfolding of a nonempty row: its first pair. -/
theorem rowL_cons (n i : ℕ) (h : i + 1 < n) :
    rowL n i =
      (i, i + 1) :: ((List.range' (i + 2) (n - (i + 2))).map
        fun j => (i, j)) := by
  rw [rowL, show n - (i + 1) = (n - (i + 2)) + 1 by omega,
    List.range'_succ, List.map_cons]

/-- Unfolding of a nonempty block of tail rows: its first row. -/
theorem tailL_cons (n r : ℕ) (h : r + 2 ≤ n) :
    tailL n r = rowL n r ++ tailL n (r + 1) := by
  rw [tailL, tailL, show n - 1 - r = (n - 1 - (r + 1)) + 1 by omega,
    List.range'_succ, List.flatMap_cons]

/-- Tail phase: from an end-of-row state [i, size], the run emits all
remaining rows i + 1 to size - 2 in full. -/
theorem run_tail (size : ℕ) : ∀ (k i : ℕ), size ≤ i + 2 + k →
    prodsRun size [i, size] = tailL size (i + 1) := by
  intro k
  induction k with
  | zero =>
    intro i hik
    rw [prodsRun, dif_neg (lt_irrefl size), dif_neg (by omega)]
    rw [tailL, show size - 1 - (i + 1) = 0 by omega]
    simp [List.range']
  | succ k ih =>
    intro i hik
    by_cases h2 : i + 2 < size
    · rw [prodsRun, dif_neg (lt_irrefl size), dif_pos h2]
      rw [run_row size (i + 1) (size - (i + 3)) (i + 3) (by omega)]
      rw [ih (i + 1) (by omega)]
      rw [tailL_cons size (i + 1) (by omega),
        rowL_cons size (i + 1) (by omega)]
      simp
    · rw [prodsRun, dif_neg (lt_irrefl size), dif_neg h2]
      rw [tailL, show size - 1 - (i + 1) = 0 by omega]
      simp [List.range']

/-- The lexicographic pair list is the full block of tail rows from
row 0 (the last row is empty). -/
theorem lexL_eq_tail (n : ℕ) : lexL n = tailL n 0 := by
  cases n with
  | zero => rfl
  | succ m =>
    rw [lexL, tailL, List.range_eq_range',
      show m + 1 - 1 - 0 = m by omega, List.range'_concat,
      List.flatMap_append]
    simp [rowL, show m + 1 - (0 + m + 1) = 0 by omega, List.range']

end Prods

/-- C9: the Prods iterator with order 2 and size N, for N at least 2,
first emits the N diagonal pairs (i, i) in increasing order and then
all off-diagonal pairs (i, j) with i below j in lexicographic order.
The off-diagonal phase opens with the pair (0, 1) produced by the
length-one branch of next, which is why the list is only correct for
N at least 2: for N at most 1 that pair is out of range and spurious
(see the counterexample). -/
theorem C9_prods_order (N : ℕ) (hN : 2 ≤ N) :
    Prods.prodsCollect N = Prods.diagL N ++ Prods.lexL N := by
  rw [Prods.prodsCollect, Prods.run_diag N N 0 (by omega),
    Prods.run_row N 0 (N - 2) 2 (by omega),
    Prods.run_tail N N 0 (by omega),
    Prods.lexL_eq_tail, Prods.tailL_cons N 0 (by omega),
    Prods.rowL_cons N 0 (by omega),
    Prods.diagL, List.range_eq_range']
  simp

/-- Witness for C9 at N = 4: the collected list is exactly the S3
scenario list of the specification. -/
theorem C9_witness :
    2 ≤ 4 ∧ Prods.prodsCollect 4 =
      [(0, 0), (1, 1), (2, 2), (3, 3), (0, 1), (0, 2), (0, 3), (1, 2),
        (1, 3), (2, 3)] :=
  ⟨by norm_num, by rw [C9_prods_order 4 (by norm_num)]; rfl⟩

/-- Counterexample to the unrestricted reading of C9: for sizes 0 and 1
the iterator still emits the pair (0, 1), which references a qubit out
of range; the diagonal-then-pairs description fails there. -/
theorem C9_counterexample :
    Prods.prodsCollect 1 = [(0, 0), (0, 1)] ∧
      Prods.prodsCollect 0 = [(0, 1)] := by
  constructor
  · rw [Prods.prodsCollect, Prods.prodsRun,
      dif_pos (by norm_num : (0 : ℕ) < 1), Prods.prodsRun,
      dif_neg (by norm_num : ¬ (1 : ℕ) < 1), Prods.prodsRun,
      dif_neg (by norm_num : ¬ (2 : ℕ) < 1),
      dif_neg (by norm_num : ¬ (0 + 2 : ℕ) < 1)]
  · rw [Prods.prodsCollect, Prods.prodsRun,
      dif_neg (by norm_num : ¬ (0 : ℕ) < 0), Prods.prodsRun,
      dif_neg (by norm_num : ¬ (2 : ℕ) < 0),
      dif_neg (by norm_num : ¬ (0 + 2 : ℕ) < 0)]

/-! BinaryRepr bit-packed state (src/annealers/src/repr.rs). The byte
vector is a list of natural numbers; u8 bitwise complement of a
BITVALUES entry is 255 ^^^ entry. with_len_unchecked allocates
(len + BYTESIZE - 1) / BYTESIZE bytes, which is the well-formedness
hypothesis of the theorems below. -/

/-- BinaryRepr (src/annealers/src/repr.rs, lines 3-7). -/
structure BinaryRepr where
  state : List ℕ
  len : ℕ

namespace BinaryRepr

/-- BITVALUES (src/annealers/src/repr.rs, line 9). -/
def BITVALUES : List ℕ := [1, 2, 4, 8, 16, 32, 64, 128]

/-- BYTESIZE (src/annealers/src/repr.rs, line 10). -/
def BYTESIZE : ℕ := 8

/-- get_unchecked (lines 82-84): test the bit of the byte holding loc.
The checked get (lines 57-60) asserts loc below len first. -/
def get_unchecked (s : BinaryRepr) (loc : ℕ) : Bool :=
  decide (0 < (s.state.getD (loc / BYTESIZE) 0) &&&
    (BITVALUES.getD (loc % BYTESIZE) 0))

/-- set_unchecked (lines 71-77): or the bit in, or and it out with the
complemented mask. The checked set (lines 63-66) asserts loc below
len. -/
def set_unchecked (s : BinaryRepr) (loc : ℕ) (val : Bool) : BinaryRepr :=
  if val then
    { s with state := (s.state.set (loc / BYTESIZE)
        ((s.state.getD (loc / BYTESIZE) 0) |||
          BITVALUES.getD (loc % BYTESIZE) 0)) }
  else
    { s with state := (s.state.set (loc / BYTESIZE)
        ((s.state.getD (loc / BYTESIZE) 0) &&&
          (255 ^^^ BITVALUES.getD (loc % BYTESIZE) 0))) }

/-- flip_unchecked (lines 95-97): xor the bit mask into the byte. The
checked flip (lines 87-90) asserts loc below len. -/
def flip_unchecked (s : BinaryRepr) (loc : ℕ) : BinaryRepr :=
  { s with state := (s.state.set (loc / BYTESIZE)
      ((s.state.getD (loc / BYTESIZE) 0) ^^^
        BITVALUES.getD (loc % BYTESIZE) 0)) }

/-- The BITVALUES table lists the eight bit masks. -/
theorem BITVALUES_getD (k : ℕ) (h : k < 8) :
    BITVALUES.getD k 0 = 2 ^ k := by
  interval_cases k <;> rfl

/-- getD of a list updated in range, at the written position. -/
theorem getD_set_self_lt {l : List ℕ} {i : ℕ} (h : i < l.length)
    (a : ℕ) : (l.set i a).getD i 0 = a := by
  rw [List.getD_eq_getElem?_getD, List.getElem?_set_self h]
  rfl

/-- getD of an updated list away from the written position. -/
theorem getD_set_ne {l : List ℕ} {i j : ℕ} (h : i ≠ j) (a : ℕ) :
    (l.set i a).getD j 0 = l.getD j 0 := by
  rw [List.getD_eq_getElem?_getD, List.getElem?_set_ne h,
    ← List.getD_eq_getElem?_getD]

/-- The strictly-positive-conjunction test of get_unchecked is the
testBit of the byte at the bit offset. -/
theorem get_testBit (s : BinaryRepr) (loc : ℕ) :
    get_unchecked s loc =
      (s.state.getD (loc / BYTESIZE) 0).testBit (loc % BYTESIZE) := by
  rw [get_unchecked,
    BITVALUES_getD (loc % BYTESIZE) (by simp only [BYTESIZE]; omega)]
  rw [Nat.and_two_pow]
  cases h : (s.state.getD (loc / BYTESIZE) 0).testBit (loc % BYTESIZE) <;>
    simp [h, Nat.two_pow_pos]

end BinaryRepr

/-- C10: BinaryRepr bit operations are local. For a well-formed
representation (byte count as allocated by with_len_unchecked) and
in-range indices loc and k with k distinct from loc: set writes exactly
the requested value at loc and leaves k unchanged; flip toggles exactly
the value at loc and leaves k unchanged; two consecutive flips of loc
restore the value at loc and at k. -/
theorem C10_bit_locality (s : BinaryRepr) (loc k : ℕ) (v : Bool)
    (hwf : s.state.length = (s.len + BinaryRepr.BYTESIZE - 1) /
      BinaryRepr.BYTESIZE)
    (hloc : loc < s.len) (hk : k < s.len) (hkl : k ≠ loc) :
    (BinaryRepr.get_unchecked (BinaryRepr.set_unchecked s loc v) loc
      = v) ∧
    (BinaryRepr.get_unchecked (BinaryRepr.set_unchecked s loc v) k
      = BinaryRepr.get_unchecked s k) ∧
    (BinaryRepr.get_unchecked (BinaryRepr.flip_unchecked s loc) loc
      = !(BinaryRepr.get_unchecked s loc)) ∧
    (BinaryRepr.get_unchecked (BinaryRepr.flip_unchecked s loc) k
      = BinaryRepr.get_unchecked s k) ∧
    (BinaryRepr.get_unchecked
        (BinaryRepr.flip_unchecked (BinaryRepr.flip_unchecked s loc) loc)
        loc = BinaryRepr.get_unchecked s loc) ∧
    (BinaryRepr.get_unchecked
        (BinaryRepr.flip_unchecked (BinaryRepr.flip_unchecked s loc) loc)
        k = BinaryRepr.get_unchecked s k) := by
  have hj : loc % BinaryRepr.BYTESIZE < 8 := by
    simp only [BinaryRepr.BYTESIZE]; omega
  have hjk : k % BinaryRepr.BYTESIZE < 8 := by
    simp only [BinaryRepr.BYTESIZE]; omega
  have hd : loc / BinaryRepr.BYTESIZE < s.state.length := by
    simp only [BinaryRepr.BYTESIZE] at hwf ⊢
    rw [hwf]
    omega
  have h255 : (255 : ℕ) = 2 ^ 8 - 1 := by norm_num
  have hstT : (BinaryRepr.set_unchecked s loc true).state =
      s.state.set (loc / BinaryRepr.BYTESIZE)
        ((s.state.getD (loc / BinaryRepr.BYTESIZE) 0) |||
          BinaryRepr.BITVALUES.getD (loc % BinaryRepr.BYTESIZE) 0) := rfl
  have hstF : (BinaryRepr.set_unchecked s loc false).state =
      s.state.set (loc / BinaryRepr.BYTESIZE)
        ((s.state.getD (loc / BinaryRepr.BYTESIZE) 0) &&&
          (255 ^^^
            BinaryRepr.BITVALUES.getD (loc % BinaryRepr.BYTESIZE) 0))
      := rfl
  have hstX : (BinaryRepr.flip_unchecked s loc).state =
      s.state.set (loc / BinaryRepr.BYTESIZE)
        ((s.state.getD (loc / BinaryRepr.BYTESIZE) 0) ^^^
          BinaryRepr.BITVALUES.getD (loc % BinaryRepr.BYTESIZE) 0) := rfl
  have hb2 : (BinaryRepr.flip_unchecked s loc).state.getD
      (loc / BinaryRepr.BYTESIZE) 0 =
      (s.state.getD (loc / BinaryRepr.BYTESIZE) 0) ^^^
        BinaryRepr.BITVALUES.getD (loc % BinaryRepr.BYTESIZE) 0 := by
    rw [hstX, BinaryRepr.getD_set_self_lt hd]
  have hstXX : (BinaryRepr.flip_unchecked
      (BinaryRepr.flip_unchecked s loc) loc).state =
      (s.state.set (loc / BinaryRepr.BYTESIZE)
        ((s.state.getD (loc / BinaryRepr.BYTESIZE) 0) ^^^
          BinaryRepr.BITVALUES.getD (loc % BinaryRepr.BYTESIZE) 0)).set
        (loc / BinaryRepr.BYTESIZE)
        (((s.state.getD (loc / BinaryRepr.BYTESIZE) 0) ^^^
          BinaryRepr.BITVALUES.getD (loc % BinaryRepr.BYTESIZE) 0) ^^^
          BinaryRepr.BITVALUES.getD (loc % BinaryRepr.BYTESIZE) 0) := by
    rw [show (BinaryRepr.flip_unchecked
        (BinaryRepr.flip_unchecked s loc) loc).state =
        (BinaryRepr.flip_unchecked s loc).state.set
          (loc / BinaryRepr.BYTESIZE)
          (((BinaryRepr.flip_unchecked s loc).state.getD
              (loc / BinaryRepr.BYTESIZE) 0) ^^^
            BinaryRepr.BITVALUES.getD (loc % BinaryRepr.BYTESIZE) 0)
        from rfl]
    rw [hb2, hstX]
  refine ⟨?_, ?_, ?_, ?_, ?_, ?_⟩
  · cases v
    · rw [BinaryRepr.get_testBit, hstF, BinaryRepr.getD_set_self_lt hd,
        BinaryRepr.BITVALUES_getD _ hj, Nat.testBit_and,
        Nat.testBit_xor, Nat.testBit_two_pow_self, h255,
        Nat.testBit_two_pow_sub_one]
      simp [hj]
    · rw [BinaryRepr.get_testBit, hstT, BinaryRepr.getD_set_self_lt hd,
        BinaryRepr.BITVALUES_getD _ hj, Nat.testBit_or,
        Nat.testBit_two_pow_self]
      simp
  · by_cases hdk : k / BinaryRepr.BYTESIZE = loc / BinaryRepr.BYTESIZE
    · have hjj : loc % BinaryRepr.BYTESIZE ≠ k % BinaryRepr.BYTESIZE
          := by
        simp only [BinaryRepr.BYTESIZE] at hdk ⊢
        omega
      cases v
      · rw [BinaryRepr.get_testBit, hstF, hdk,
          BinaryRepr.getD_set_self_lt hd, BinaryRepr.BITVALUES_getD _ hj,
          Nat.testBit_and, Nat.testBit_xor, h255,
          Nat.testBit_two_pow_sub_one,
          Nat.testBit_two_pow_of_ne hjj, BinaryRepr.get_testBit, hdk]
        simp [hjk]
      · rw [BinaryRepr.get_testBit, hstT, hdk,
          BinaryRepr.getD_set_self_lt hd, BinaryRepr.BITVALUES_getD _ hj,
          Nat.testBit_or, Nat.testBit_two_pow_of_ne hjj,
          BinaryRepr.get_testBit, hdk]
        simp
    · have hne : loc / BinaryRepr.BYTESIZE ≠ k / BinaryRepr.BYTESIZE :=
        fun h => hdk h.symm
      cases v
      · rw [BinaryRepr.get_testBit, hstF, BinaryRepr.getD_set_ne hne,
          BinaryRepr.get_testBit]
      · rw [BinaryRepr.get_testBit, hstT, BinaryRepr.getD_set_ne hne,
          BinaryRepr.get_testBit]
  · rw [BinaryRepr.get_testBit, hstX, BinaryRepr.getD_set_self_lt hd,
      BinaryRepr.BITVALUES_getD _ hj, Nat.testBit_xor,
      Nat.testBit_two_pow_self, BinaryRepr.get_testBit]
    simp
  · by_cases hdk : k / BinaryRepr.BYTESIZE = loc / BinaryRepr.BYTESIZE
    · have hjj : loc % BinaryRepr.BYTESIZE ≠ k % BinaryRepr.BYTESIZE
          := by
        simp only [BinaryRepr.BYTESIZE] at hdk ⊢
        omega
      rw [BinaryRepr.get_testBit, hstX, hdk,
        BinaryRepr.getD_set_self_lt hd, BinaryRepr.BITVALUES_getD _ hj,
        Nat.testBit_xor, Nat.testBit_two_pow_of_ne hjj,
        BinaryRepr.get_testBit, hdk]
      simp
    · have hne : loc / BinaryRepr.BYTESIZE ≠ k / BinaryRepr.BYTESIZE :=
        fun h => hdk h.symm
      rw [BinaryRepr.get_testBit, hstX, BinaryRepr.getD_set_ne hne,
        BinaryRepr.get_testBit]
  · rw [BinaryRepr.get_testBit, hstXX,
      BinaryRepr.getD_set_self_lt (by rw [List.length_set]; exact hd),
      Nat.xor_assoc, Nat.xor_self, Nat.xor_zero, BinaryRepr.get_testBit]
  · by_cases hdk : k / BinaryRepr.BYTESIZE = loc / BinaryRepr.BYTESIZE
    · rw [BinaryRepr.get_testBit, hstXX, hdk,
        BinaryRepr.getD_set_self_lt (by rw [List.length_set]; exact hd),
        Nat.xor_assoc, Nat.xor_self, Nat.xor_zero,
        BinaryRepr.get_testBit, hdk]
    · have hne : loc / BinaryRepr.BYTESIZE ≠ k / BinaryRepr.BYTESIZE :=
        fun h => hdk h.symm
      rw [BinaryRepr.get_testBit, hstXX, BinaryRepr.getD_set_ne hne,
        BinaryRepr.getD_set_ne hne, BinaryRepr.get_testBit]

/-- Witness for C10: a one-byte representation of length 3, setting
location 1 and flipping location 1 while observing location 2. -/
theorem C10_witness :
    ((BinaryRepr.mk [0] 3).state.length =
        ((BinaryRepr.mk [0] 3).len + BinaryRepr.BYTESIZE - 1) /
          BinaryRepr.BYTESIZE ∧
      1 < (BinaryRepr.mk [0] 3).len ∧ 2 < (BinaryRepr.mk [0] 3).len ∧
      (2 : ℕ) ≠ 1) ∧
    (BinaryRepr.get_unchecked
        (BinaryRepr.set_unchecked (BinaryRepr.mk [0] 3) 1 true) 1
      = true) ∧
    (BinaryRepr.get_unchecked
        (BinaryRepr.set_unchecked (BinaryRepr.mk [0] 3) 1 true) 2
      = BinaryRepr.get_unchecked (BinaryRepr.mk [0] 3) 2) ∧
    (BinaryRepr.get_unchecked
        (BinaryRepr.flip_unchecked (BinaryRepr.mk [0] 3) 1) 1
      = !(BinaryRepr.get_unchecked (BinaryRepr.mk [0] 3) 1)) ∧
    (BinaryRepr.get_unchecked
        (BinaryRepr.flip_unchecked (BinaryRepr.mk [0] 3) 1) 2
      = BinaryRepr.get_unchecked (BinaryRepr.mk [0] 3) 2) ∧
    (BinaryRepr.get_unchecked
        (BinaryRepr.flip_unchecked
          (BinaryRepr.flip_unchecked (BinaryRepr.mk [0] 3) 1) 1) 1
      = BinaryRepr.get_unchecked (BinaryRepr.mk [0] 3) 1) ∧
    (BinaryRepr.get_unchecked
        (BinaryRepr.flip_unchecked
          (BinaryRepr.flip_unchecked (BinaryRepr.mk [0] 3) 1) 1) 2
      = BinaryRepr.get_unchecked (BinaryRepr.mk [0] 3) 2) :=
  ⟨⟨by decide, by decide, by decide, by decide⟩,
    C10_bit_locality (BinaryRepr.mk [0] 3) 1 2 true (by decide)
      (by decide) (by decide) (by decide)⟩

/-! Order reduction (src/src/compiled.rs, lines 62-227) over the
Expanded map (src/src/expanded.rs). An Expanded is a map from qubit
sets to StaticExpr coefficients; it is embedded as an association list
with distinct keys. -/

namespace Compiled

/-- An Expanded (src/src/expanded.rs, lines 102-110): association list
from qubit BTreeSets to StaticExpr coefficients. -/
abbrev TermMap := List (Finset Qu × StaticExpr)

end Compiled

namespace StaticExpr

/- `StaticExpr::is_positive` (src/src/expr.rs, lines 585-621): Numbers
report their sign, Placeholders report positive; an Add reports the
common sign of its summands if they all agree (None on disagreement or
unknown, None when empty); a Mul multiplies the signs (None when a
factor is unknown or the product is empty). -/
mutual

def is_positive : StaticExpr → Option Bool
  | .Add l => is_posL true none l
  | .Mul l => is_posL false none l
  | .Number n => some (decide (0 < n))
  | .Placeholder _ => some true

def is_posL : Bool → Option Bool → List StaticExpr → Option Bool
  | _, ret, [] => ret
  | isAdd, ret, e :: rest =>
    match is_positive e with
    | none => none
    | some b =>
      match ret with
      | none => is_posL isAdd (some b) rest
      | some bb =>
        if isAdd then
          (if b ≠ bb then none else is_posL isAdd (some bb) rest)
        else is_posL isAdd (some (b == bb)) rest

end

end StaticExpr

namespace Compiled

/-- `Expanded::is_superset` (src/src/expanded.rs, lines 156-158): every
key of the map contains the given set. -/
def is_superset (m : TermMap) (other : Finset Qu) : Bool :=
  m.all (fun t => decide (other ⊆ t.1))

/-- `Expanded::get_order` (src/src/expanded.rs, lines 160-162): the
largest key size, 0 for the empty map. -/
def get_order (m : TermMap) : ℕ :=
  (m.map (fun t => t.1.card)).foldr max 0

/-- `Expanded::remove_qubits` (src/src/expanded.rs, lines 164-176):
remove the given qubits from every key. -/
def remove_qubits (m : TermMap) (qs : Finset Qu) : TermMap :=
  m.map (fun t => (t.1 \ qs, t.2))

/-- The insert-or-merge of `AddAssign` and `MulAssign`
(src/src/expanded.rs, lines 370-379 and 416-423): a colliding key gets
the simplified sum of the old and new coefficients. -/
def insertMerge (m : TermMap) (k : Finset Qu) (v : StaticExpr) :
    TermMap :=
  match m with
  | [] => [(k, v)]
  | (k2, v2) :: rest =>
    if k = k2 then (k, StaticExpr.simplify (.Add [v2, v])) :: rest
    else (k2, v2) :: insertMerge rest k v

/-- `Expanded::add_assign` (src/src/expanded.rs, lines 361-380). -/
def addAssignE (m other : TermMap) : TermMap :=
  other.foldl (fun acc t => insertMerge acc t.1 t.2) m

/-- `Expanded::mul_assign` (src/src/expanded.rs, lines 397-426): all
key unions paired with the simplified products, merged into a fresh
map. -/
def mulAssignE (m other : TermMap) : TermMap :=
  (m.flatMap (fun t1 => other.map (fun t2 =>
    (t1.1 ∪ t2.1, StaticExpr.simplify (.Mul [t1.2, t2.2]))))).foldl
    (fun acc t => insertMerge acc t.1 t.2) []

/-- `CompiledModel::generate_replace` (src/src/compiled.rs, lines
62-174), with the Builder ancilla counter threaded explicitly (anc is
the next fresh ancilla index). Returns the replacing Expanded, the
optional constraint Expanded, and the new counter; none models the
panic of the indeterminate branch on fewer than two qubits. All
HashMap inserts of the source write distinct fresh keys, so the map is
built by list append. Numeric indices follow the source: n = (d-1)/2,
diagonal weights 4(i+1)-1 (and 2n-1 for the extra ancilla of the odd
case), pair weights 1; the indeterminate branch takes the first two
qubits of the set in sorted order. -/
def generate_replace (set : Finset Qu) (anc : ℕ) (p : Option Bool) :
    Option (TermMap × Option TermMap × ℕ) :=
  let d := set.card
  let xs := set.sort (· ≤ ·)
  match p with
  | some true =>
    let n := (d - 1) / 2
    let base : TermMap :=
      if d % 2 = 0 then
        (List.range n).flatMap (fun i =>
          xs.map (fun x => ((({Qu.Ancilla (anc + i), x}) : Finset Qu),
            StaticExpr.Number (-2)))
          ++ [(({Qu.Ancilla (anc + i)} : Finset Qu),
            StaticExpr.Number (4 * ((i : ℚ) + 1) - 1))])
      else
        (xs.map (fun x => ((({Qu.Ancilla anc, x}) : Finset Qu),
          StaticExpr.Number (-1)))
          ++ [(({Qu.Ancilla anc} : Finset Qu),
            StaticExpr.Number (2 * ((n : ℚ)) - 1))])
        ++ (List.range (n - 1)).flatMap (fun i =>
          xs.map (fun x =>
            ((({Qu.Ancilla (anc + 1 + i), x}) : Finset Qu),
              StaticExpr.Number (-2)))
          ++ [(({Qu.Ancilla (anc + 1 + i)} : Finset Qu),
            StaticExpr.Number (4 * ((i : ℚ) + 1) - 1))])
    let pairs : TermMap :=
      (List.range d).flatMap (fun i =>
        (List.range' (i + 1) (d - (i + 1))).map (fun j =>
          ((({xs.getD i (Qu.Qubit 0), xs.getD j (Qu.Qubit 0)}) :
            Finset Qu), StaticExpr.Number 1)))
    let newAnc := if d % 2 = 0 then anc + n else anc + 1 + (n - 1)
    some (base ++ pairs, none, newAnc)
  | some false =>
    some (xs.map (fun x => ((({Qu.Ancilla anc, x}) : Finset Qu),
        StaticExpr.Number 1))
      ++ [(({Qu.Ancilla anc} : Finset Qu),
        StaticExpr.Number (1 - (d : ℚ)))],
      none, anc + 1)
  | none =>
    match xs with
    | x :: y :: _ =>
      some ([(({Qu.Ancilla anc} : Finset Qu), StaticExpr.Number 1)],
        some [(({Qu.Ancilla anc} : Finset Qu), StaticExpr.Number 3),
          (({x, Qu.Ancilla anc} : Finset Qu), StaticExpr.Number (-2)),
          (({y, Qu.Ancilla anc} : Finset Qu), StaticExpr.Number (-2)),
          (({x, y} : Finset Qu), StaticExpr.Number 1)],
        anc + 1)
    | _ => none

/-- One count of `count_qubit_subsets` (src/src/expanded.rs, lines
237-272): the number of terms whose key strictly exceeds max_order,
contains S (with the size floor minSz; get_subsets enumerates each
subset in the size window exactly once, see its unit test at lines
13-64), and whose sign information matches: subsets of size above 2
carry the sign of the term coefficient (terms of unknown sign are
skipped), smaller subsets carry none. -/
def subCount (m : TermMap) (maxOrder minSz : ℕ) (S : Finset Qu)
    (info : Option Bool) : ℕ :=
  m.countP (fun t =>
    decide (maxOrder < t.1.card) &&
    decide (S ⊆ t.1) &&
    decide (minSz ≤ S.card) &&
    (if 2 < S.card then
      (match StaticExpr.is_positive t.2 with
       | some b => decide (info = some b)
       | none => false)
     else decide (info = none)))

/-- The selection of `reduce_order` (src/src/compiled.rs, lines
189-200): a positively counted entry of maximal count whose set size
is maximal among entries of that count. The iteration order of the
count map is unspecified, so the source picks an arbitrary such
entry. -/
def IsChosen (m : TermMap) (maxOrder minSz : ℕ) (S : Finset Qu)
    (info : Option Bool) : Prop :=
  0 < subCount m maxOrder minSz S info ∧
  (∀ S2 info2, subCount m maxOrder minSz S2 info2 ≤
    subCount m maxOrder minSz S info) ∧
  (∀ S2 info2, subCount m maxOrder minSz S2 info2 =
    subCount m maxOrder minSz S info → S2.card ≤ S.card)

/-- The rewriting pass of one `reduce_order` iteration
(src/src/compiled.rs, lines 204-215): every term is re-read as a
singleton Expanded; a term whose key contains the replaced set has the
set removed and is multiplied by the replacing Expanded; everything is
summed into a fresh Expanded. -/
def rewriteStep (m : TermMap) (replaced : Finset Qu)
    (replacing : TermMap) : TermMap :=
  m.foldl (fun acc t =>
    addAssignE acc
      (if is_superset [t] replaced then
        mulAssignE (remove_qubits [t] replaced) replacing
      else [t])) []

/-- Coefficient value of a placeholder-free StaticExpr (its calculate
value; the resolver is irrelevant). -/
def numVal (e : StaticExpr) : ℚ :=
  (StaticExpr.calcA (fun _ => 0) e).getD 0

/-- Monomial of a key under an assignment: 1 when every qubit of the
key is set, else 0 (the product of binary variables). -/
def bitB (f : Qu → Bool) (S : Finset Qu) : ℚ :=
  if ∀ q ∈ S, f q = true then 1 else 0

/-- Pseudo-Boolean value of an Expanded under an assignment: sum of
coefficient times monomial. This is the semantics generate_qubo
realizes as the constant, diagonal and off-diagonal weights. -/
def evalT (f : Qu → Bool) (m : TermMap) : ℚ :=
  (m.map (fun t => numVal t.2 * bitB f t.1)).sum

/-- The failing objective E0 = -10 abc - 10 abd + 100 ac over the
qubits a = Qubit 0, b = Qubit 1, c = Qubit 2, d = Qubit 3. -/
def E0 : TermMap :=
  [({Qu.Qubit 0, Qu.Qubit 1, Qu.Qubit 2}, StaticExpr.Number (-10)),
   ({Qu.Qubit 0, Qu.Qubit 1, Qu.Qubit 3}, StaticExpr.Number (-10)),
   ({Qu.Qubit 0, Qu.Qubit 2}, StaticExpr.Number 100)]

/-- The subset reduce_order is forced to choose on E0: the pair ab. -/
def replacedE0 : Finset Qu := {Qu.Qubit 0, Qu.Qubit 1}

/-- Expanded::from_qubit of the fresh ancilla w = Ancilla 0. -/
def replExpE0 : TermMap := [({Qu.Ancilla 0}, StaticExpr.Number 1)]

/-- The pair gadget 3w - 2aw - 2bw + ab, pushed as an unlabeled
constraint and never added to the objective. -/
def constrE0 : TermMap :=
  [({Qu.Ancilla 0}, StaticExpr.Number 3),
   ({Qu.Qubit 0, Qu.Ancilla 0}, StaticExpr.Number (-2)),
   ({Qu.Qubit 1, Qu.Ancilla 0}, StaticExpr.Number (-2)),
   ({Qu.Qubit 0, Qu.Qubit 1}, StaticExpr.Number 1)]

/-- The rewritten objective -10 cw - 10 dw + 100 ac. -/
def reducedE0v : TermMap :=
  [({Qu.Qubit 2, Qu.Ancilla 0}, StaticExpr.Number (-10)),
   ({Qu.Qubit 3, Qu.Ancilla 0}, StaticExpr.Number (-10)),
   ({Qu.Qubit 0, Qu.Qubit 2}, StaticExpr.Number 100)]

/-- An optimal assignment of E0: a = b = d = 1, c = 0, value -10. -/
def f0 : Qu → Bool := fun q =>
  decide (q = Qu.Qubit 0 ∨ q = Qu.Qubit 1 ∨ q = Qu.Qubit 3)

/-- The reduced-model assignment a = 0, b = c = d = w = 1, whose value
-19 undercuts the original optimum. -/
def g0 : Qu → Bool := fun q =>
  decide (q = Qu.Qubit 1 ∨ q = Qu.Qubit 2 ∨ q = Qu.Qubit 3 ∨
    q = Qu.Ancilla 0)

/-- Simplification of a product of two numeric literals. -/
theorem simplify_mul_nums (a b : ℚ) :
    StaticExpr.simplify (.Mul [.Number a, .Number b]) =
      .Number (a * b) := by
  have hexp : StaticExpr.expand_mul (.Mul [.Number a, .Number b]) =
      [.Number a, .Number b] := by
    rw [StaticExpr.expand_mul, StaticExpr.expand_mulL_eq]
    simp [StaticExpr.expand_mul_non_mul, StaticExpr.isMulB]
  rw [StaticExpr.simplify_Mul, hexp, List.map_cons, List.map_cons,
    List.map_nil, StaticExpr.simplify_Number, StaticExpr.simplify_Number,
    StaticExpr.rebuild]
  simp [StaticExpr.fold_numbers, StaticExpr.pushVal,
    StaticExpr.assembleV]

/-- The sorted member list of the chosen pair. -/
theorem sort_replacedE0 :
    replacedE0.sort (· ≤ ·) = [Qu.Qubit 0, Qu.Qubit 1] := by
  rw [show replacedE0 = insert (Qu.Qubit 0) {Qu.Qubit 1} from rfl,
    Finset.sort_insert, Finset.sort_singleton]
  · intro b hb
    rw [Finset.mem_singleton] at hb
    subst hb
    decide
  · decide

/-- generate_replace on the chosen pair with indeterminate sign:
substitute the fresh ancilla and push the pair gadget. -/
theorem generate_replace_E0 :
    generate_replace replacedE0 0 none =
      some (replExpE0, some constrE0, 1) := by
  simp only [generate_replace, sort_replacedE0]
  rfl

/-- The rewrite pass on E0: both cubic terms contain ab, lose it and
gain the ancilla; the quadratic term is untouched. -/
theorem rewrite_E0 :
    rewriteStep E0 replacedE0 replExpE0 = reducedE0v := by
  have hm : StaticExpr.simplify (.Mul [.Number (-10), .Number 1]) =
      .Number (-10) := by
    rw [simplify_mul_nums]
    norm_num
  simp +decide [rewriteStep, E0, is_superset, remove_qubits, mulAssignE,
    addAssignE, insertMerge, replExpE0, hm, reducedE0v]

/-- Closed form of the subset count on E0: only the two cubic terms
are counted, each contributing when it contains S with the size floor
met and the sign information matching (the cubic coefficients are
negative, the quadratic term is below the order bound). -/
theorem subCount_E0_form (S : Finset Qu) (info : Option Bool) :
    subCount E0 2 2 S info =
      (if (decide (S ⊆ ({Qu.Qubit 0, Qu.Qubit 1, Qu.Qubit 2} :
            Finset Qu)) && decide (2 ≤ S.card) &&
          (if 2 < S.card then decide (info = some false)
           else decide (info = none))) = true then 1 else 0) +
      (if (decide (S ⊆ ({Qu.Qubit 0, Qu.Qubit 1, Qu.Qubit 3} :
            Finset Qu)) && decide (2 ≤ S.card) &&
          (if 2 < S.card then decide (info = some false)
           else decide (info = none))) = true then 1 else 0) := by
  simp only [subCount, E0, List.countP_cons, List.countP_nil]
  rw [show (({Qu.Qubit 0, Qu.Qubit 1, Qu.Qubit 2} : Finset Qu)).card = 3
    from by decide]
  rw [show (({Qu.Qubit 0, Qu.Qubit 1, Qu.Qubit 3} : Finset Qu)).card = 3
    from by decide]
  rw [show (({Qu.Qubit 0, Qu.Qubit 2} : Finset Qu)).card = 2
    from by decide]
  rw [show StaticExpr.is_positive (.Number (-10)) = some false from by
    rw [StaticExpr.is_positive]
    norm_num]
  norm_num
  ring

/-- The chosen pair is counted twice: once per cubic term. -/
theorem subCount_ab : subCount E0 2 2 replacedE0 none = 2 := by
  rw [subCount_E0_form]
  decide

/-- No entry of the count map on E0 exceeds 2. -/
theorem subCount_le (S : Finset Qu) (info : Option Bool) :
    subCount E0 2 2 S info ≤ 2 := by
  rw [subCount_E0_form]
  split_ifs <;> omega

/-- An entry counted twice on E0 is the pair ab with no sign
information. -/
theorem count2_sub (S : Finset Qu) (info : Option Bool)
    (h2 : subCount E0 2 2 S info = 2) :
    S = replacedE0 ∧ info = none := by
  rw [subCount_E0_form] at h2
  by_cases hb1 : (decide (S ⊆ ({Qu.Qubit 0, Qu.Qubit 1, Qu.Qubit 2} :
        Finset Qu)) && decide (2 ≤ S.card) &&
      (if 2 < S.card then decide (info = some false)
       else decide (info = none))) = true
  case neg => rw [if_neg hb1] at h2; split_ifs at h2 <;> omega
  by_cases hb2 : (decide (S ⊆ ({Qu.Qubit 0, Qu.Qubit 1, Qu.Qubit 3} :
        Finset Qu)) && decide (2 ≤ S.card) &&
      (if 2 < S.card then decide (info = some false)
       else decide (info = none))) = true
  case neg => rw [if_neg hb2] at h2; split_ifs at h2 <;> omega
  · simp only [Bool.and_eq_true, decide_eq_true_eq] at hb1 hb2
    obtain ⟨⟨hsub1, hcard⟩, hinfo⟩ := hb1
    obtain ⟨⟨hsub2, _⟩, _⟩ := hb2
    have hsub : S ⊆ ({Qu.Qubit 0, Qu.Qubit 1, Qu.Qubit 2} : Finset Qu)
        ∩ {Qu.Qubit 0, Qu.Qubit 1, Qu.Qubit 3} :=
      Finset.subset_inter hsub1 hsub2
    rw [show ({Qu.Qubit 0, Qu.Qubit 1, Qu.Qubit 2} : Finset Qu) ∩
        {Qu.Qubit 0, Qu.Qubit 1, Qu.Qubit 3} = replacedE0 from by
      decide] at hsub
    have hcard2 : S.card ≤ 2 := by
      have := Finset.card_le_card hsub
      rw [show replacedE0.card = 2 from by decide] at this
      exact this
    have hS : S = replacedE0 := by
      apply Finset.eq_of_subset_of_card_le hsub
      rw [show replacedE0.card = 2 from by decide]
      exact hcard
    refine ⟨hS, ?_⟩
    rw [if_neg (not_lt.mpr hcard2)] at hinfo
    exact of_decide_eq_true hinfo

/-- The selection on E0 is forced: the pair ab with indeterminate sign
satisfies the selection property, and it is the only entry that
does. -/
theorem chosen_E0 :
    IsChosen E0 2 2 replacedE0 none ∧
    ∀ S info, IsChosen E0 2 2 S info → S = replacedE0 ∧ info = none := by
  constructor
  · refine ⟨by rw [subCount_ab]; norm_num, ?_, ?_⟩
    · intro S2 info2
      rw [subCount_ab]
      exact subCount_le S2 info2
    · intro S2 info2 h
      rw [subCount_ab] at h
      obtain ⟨hS, _⟩ := count2_sub S2 info2 h
      rw [hS]
  · intro S info h
    obtain ⟨hpos, hmax, hsize⟩ := h
    have h2le : subCount E0 2 2 S info ≤ 2 := subCount_le S info
    have h2ge : 2 ≤ subCount E0 2 2 S info := by
      have := hmax replacedE0 none
      rw [subCount_ab] at this
      exact this
    exact count2_sub S info (le_antisymm h2le h2ge)

/-- The original objective never goes below -10. -/
theorem E0_lower (f : Qu → Bool) : -10 ≤ evalT f E0 := by
  cases h0 : f (Qu.Qubit 0) <;> cases h1 : f (Qu.Qubit 1) <;>
    cases h2 : f (Qu.Qubit 2) <;> cases h3 : f (Qu.Qubit 3) <;>
    simp [evalT, E0, numVal, StaticExpr.calcA, bitB, h0, h1, h2, h3] <;>
    norm_num

/-- The original objective attains -10 at a = b = d = 1, c = 0. -/
theorem E0_at_f0 : evalT f0 E0 = -10 := by
  simp [evalT, E0, numVal, StaticExpr.calcA, bitB, f0]

/-- The reduced objective plus the gadget constraint goes down to
-19. -/
theorem red_lower (f : Qu → Bool) :
    -19 ≤ evalT f reducedE0v + evalT f constrE0 := by
  cases h0 : f (Qu.Qubit 0) <;> cases h1 : f (Qu.Qubit 1) <;>
    cases h2 : f (Qu.Qubit 2) <;> cases h3 : f (Qu.Qubit 3) <;>
    cases h4 : f (Qu.Ancilla 0) <;>
    simp [evalT, reducedE0v, constrE0, numVal, StaticExpr.calcA, bitB,
      h0, h1, h2, h3, h4] <;>
    norm_num

/-- The reduced model attains -19 at a = 0, b = c = d = w = 1. -/
theorem red_at_g0 :
    evalT g0 reducedE0v + evalT g0 constrE0 = -19 := by
  simp [evalT, reducedE0v, constrE0, numVal, StaticExpr.calcA, bitB, g0]
  norm_num

end Compiled

/-- C1: order reduction does NOT preserve the optimum. On the
objective E0 = -10 abc - 10 abd + 100 ac, reduce_order(2) is forced to
select the pair ab with indeterminate sign (the pair is the unique
maximal-count entry of count_qubit_subsets, so the arbitrary tie-break
of the source is irrelevant); generate_replace substitutes the fresh
ancilla w for ab and pushes the under-weighted pair gadget
3w - 2aw - 2bw + ab as an unlabeled constraint that never reaches the
objective. The reduced model plus the gadget reaches -19 (at a = 0,
b = c = d = w = 1, where w = 1 despite ab = 0), strictly below the
original global minimum -10, refuting both the minimum-preservation
contract and the extension of optimal assignments. -/
theorem C1_reduce_order_not_optimum_preserving :
    (Compiled.IsChosen Compiled.E0 2 2 Compiled.replacedE0 none ∧
      ∀ S info, Compiled.IsChosen Compiled.E0 2 2 S info →
        S = Compiled.replacedE0 ∧ info = none) ∧
    (Compiled.get_order Compiled.E0 = 3 ∧
      Compiled.generate_replace Compiled.replacedE0 0 none =
        some (Compiled.replExpE0, some Compiled.constrE0, 1) ∧
      Compiled.rewriteStep Compiled.E0 Compiled.replacedE0
        Compiled.replExpE0 = Compiled.reducedE0v ∧
      Compiled.get_order Compiled.reducedE0v = 2) ∧
    ((∀ f : Qu → Bool, -10 ≤ Compiled.evalT f Compiled.E0) ∧
      Compiled.evalT Compiled.f0 Compiled.E0 = -10) ∧
    ((∀ f : Qu → Bool, -19 ≤ Compiled.evalT f Compiled.reducedE0v +
        Compiled.evalT f Compiled.constrE0) ∧
      Compiled.evalT Compiled.g0 Compiled.reducedE0v +
        Compiled.evalT Compiled.g0 Compiled.constrE0 = -19) :=
  ⟨Compiled.chosen_E0,
   ⟨by decide, Compiled.generate_replace_E0, Compiled.rewrite_E0,
     by decide⟩,
   ⟨Compiled.E0_lower, Compiled.E0_at_f0⟩,
   ⟨Compiled.red_lower, Compiled.red_at_g0⟩⟩

end RustQubo
